import Mathlib

/-!
Verification of the merlin-models recommender building blocks: the
brute-force top-k retrieval block, the (contrastive) dot-product
prediction layers, and the tabular aggregation operators.  Tensors are
shallowly embedded as finitely nested lists of rationals (floating-point
rounding is not modelled), and the Python/TensorFlow control flow is
translated into total Lean functions returning `Except` for the raising
code paths.
-/

namespace Merlin

/-- Dense tensors, modelled as finitely nested lists of rationals:
`scal` is a rank-0 tensor and `arr` adds one leading axis.  TensorFlow
tensors are never ragged, so the values of interest have uniform shape
along every axis (`Tens.wfb`). -/
inductive Tens where
  | scal (x : ℚ)
  | arr (xs : List Tens)

/-- Test for a rank-0 tensor. -/
def Tens.isScal : Tens → Bool
  | .scal _ => true
  | .arr _ => false

/-- Value of a rank-0 tensor (0 as a default on higher ranks). -/
def Tens.unscal : Tens → ℚ
  | .scal x => x
  | .arr _ => 0

/-- Rank of a tensor, following the first component, as produced by
`len(tf.shape(t))`.  On an empty outermost axis the deeper shape
information is not recoverable from a nested-list value. -/
def Tens.rank : Tens → ℕ
  | .scal _ => 0
  | .arr [] => 1
  | .arr (x :: _) => 1 + x.rank

/-- Shape of a tensor along the first component. -/
def Tens.shape : Tens → List ℕ
  | .scal _ => []
  | .arr [] => [0]
  | .arr (x :: xs) => (xs.length + 1) :: x.shape

/-- Well-formedness: every slice along every axis has the same shape,
which is true of every genuine TensorFlow tensor. -/
def Tens.wfb : Tens → Bool
  | .scal _ => true
  | .arr [] => true
  | .arr (x :: xs) =>
    x.wfb && xs.attach.all (fun t => t.1.wfb && (t.1.shape == x.shape))
decreasing_by
  all_goals simp_wf
  · omega
  · have := List.sizeOf_lt_of_mem t.2
    omega

/-- View a rank-1 tensor as a list of rationals. -/
def Tens.toVec : Tens → Option (List ℚ)
  | .scal _ => none
  | .arr xs => if xs.all Tens.isScal then some (xs.map Tens.unscal) else none

/-- View a rank-2 tensor as a list of rows. -/
def Tens.toMatrix : Tens → Option (List (List ℚ))
  | .scal _ => none
  | .arr xs => xs.mapM Tens.toVec

/-- Build a rank-1 tensor from a list of rationals. -/
def Tens.ofVec (v : List ℚ) : Tens := .arr (v.map .scal)

/-- Build a rank-2 tensor from a list of rows. -/
def Tens.ofMatrix (m : List (List ℚ)) : Tens := .arr (m.map Tens.ofVec)

/-- Size of the first axis, as produced by `tf.shape(t)[0]`. -/
def Tens.dim0 : Tens → ℕ
  | .scal _ => 0
  | .arr xs => xs.length

mutual

/-- Elementwise addition of two tensors (the meaning of summing a
stacked pair along axis 0).  The mismatched-rank fallbacks never arise
for the equal-shaped operands TensorFlow accepts. -/
def Tens.add : Tens → Tens → Tens
  | .scal x, .scal y => .scal (x + y)
  | .arr xs, .arr ys => .arr (Tens.addList xs ys)
  | .scal x, .arr _ => .scal x
  | .arr _, .scal y => .scal y

/-- Pointwise addition of two lists of tensors, truncated to the
shorter list. -/
def Tens.addList : List Tens → List Tens → List Tens
  | x :: xs, y :: ys => Tens.add x y :: Tens.addList xs ys
  | _, _ => []

end

mutual

/-- Elementwise multiplication of two tensors (`tf.multiply` on
equal-shaped operands). -/
def Tens.mul : Tens → Tens → Tens
  | .scal x, .scal y => .scal (x * y)
  | .arr xs, .arr ys => .arr (Tens.mulList xs ys)
  | .scal x, .arr _ => .scal x
  | .arr _, .scal y => .scal y

/-- Pointwise multiplication of two lists of tensors, truncated to the
shorter list. -/
def Tens.mulList : List Tens → List Tens → List Tens
  | x :: xs, y :: ys => Tens.mul x y :: Tens.mulList xs ys
  | _, _ => []

end

/-- Pointwise application of a scalar function, used for activations. -/
def Tens.tmap (f : ℚ → ℚ) : Tens → Tens
  | .scal x => .scal (f x)
  | .arr xs => .arr (xs.attach.map (fun t => t.1.tmap f))
decreasing_by
  simp_wf
  have := List.sizeOf_lt_of_mem t.2
  omega

/-- Entry of a tensor at a multi-index (0 outside the valid range). -/
def Tens.entry : Tens → List ℕ → ℚ
  | .scal x, [] => x
  | .arr (x :: _), 0 :: ix => x.entry ix
  | .arr (_ :: xs), (i + 1) :: ix => (Tens.arr xs).entry (i :: ix)
  | _, _ => 0

/-- Summation along axis 0, applied to a stacked list of equal-shaped
tensors (`tf.reduce_sum(ts, axis=0)` after conversion of a Python list
to a tensor). -/
def Tens.reduceSum0 : Tens → Tens
  | .scal x => .scal x
  | .arr [] => .scal 0
  | .arr (t :: ts) => ts.foldl Tens.add t

/-- Summation over the last axis keeping the reduced dimension
(`tf.reduce_sum(t, keepdims=True, axis=-1)`).  A rank-1 tensor collapses
to a single entry; higher ranks recurse into their slices. -/
def Tens.reduceSumLastKeep : Tens → Tens
  | .scal x => .scal x
  | .arr xs =>
    if xs.all Tens.isScal then .arr [.scal ((xs.map Tens.unscal).sum)]
    else .arr (xs.attach.map (fun t => t.1.reduceSumLastKeep))
decreasing_by
  simp_wf
  have := List.sizeOf_lt_of_mem t.2
  omega

mutual

/-- Concatenation of two tensors along the last axis
(`tf.concat([a, b], axis=-1)` on two equal-rank operands). -/
def Tens.concatLast : Tens → Tens → Tens
  | .arr xs, .arr ys =>
    if xs.all Tens.isScal && ys.all Tens.isScal then .arr (xs ++ ys)
    else .arr (Tens.concatLastList xs ys)
  | t, _ => t

/-- Slicewise concatenation along the last axis. -/
def Tens.concatLastList : List Tens → List Tens → List Tens
  | x :: xs, y :: ys => Tens.concatLast x y :: Tens.concatLastList xs ys
  | _, _ => []

end

/-- Concatenation of the slices along the first axis
(`tf.concat([a, b], axis=0)`), used when combining sampled items. -/
def Tens.concat0 : Tens → Tens → Tens
  | .arr xs, .arr ys => .arr (xs ++ ys)
  | t, _ => t

/-- Removal of the size-1 axes of a tensor (`tf.squeeze`). -/
def Tens.tsqueeze : Tens → Tens
  | .scal x => .scal x
  | .arr [x] => x.tsqueeze
  | .arr xs => .arr (xs.attach.map (fun t => t.1.tsqueeze))
decreasing_by
  all_goals simp_wf
  · omega
  · have := List.sizeOf_lt_of_mem t.2
    omega

/-- Dot product of two vectors of equal length
(sum of the elementwise products). -/
def dot (xs ys : List ℚ) : ℚ := (List.zipWith (fun a b => a * b) xs ys).sum

/-- Row-level matrix product with the second operand transposed
(`tf.matmul(a, b, transpose_b=True)`). -/
def matmulT (a b : List (List ℚ)) : List (List ℚ) :=
  a.map (fun r => b.map (fun c => dot r c))

/-- Indices of the k largest entries of a row, in non-increasing score
order with ties broken towards the lower index, as produced by
`tf.math.top_k`.  The index list 0..n-1 is stably sorted by descending
score and truncated to its first k elements. -/
def topKSel (k : ℕ) (row : List ℚ) : List ℕ :=
  ((List.range row.length).insertionSort
    (fun i j => row.getD j 0 ≤ row.getD i 0)).take k

/-- State of a `BruteForceTopK` block: the constructor stores `k` and
leaves `_candidates` as `None`; `load_index` fills the candidate matrix
and the identifier vector. -/
structure BruteForceTopK where
  k : ℕ
  candidates : Option (List (List ℚ))
  identifiers : List ℚ

/-- Embedding of `BruteForceTopK.load_index`.  The embeddings argument
must be rank-2; the optional ids argument is a rank-1 tensor whose
Python truth test (`if not candidates_ids`) raises for more than one
element and replaces a falsy value (absent, or a single zero id) by
`tf.range(n)`. -/
def BruteForceTopK.load_index (b : BruteForceTopK) (candidatesEmbeddings : Tens)
    (candidatesIds : Option (List ℚ)) : Except String BruteForceTopK :=
  if candidatesEmbeddings.rank ≠ 2 then
    .error "The candidates embeddings tensor must be 2D"
  else
    match candidatesEmbeddings.toMatrix with
    | none => .error "invalid tensor value"
    | some m =>
      let rangeIds : List ℚ := (List.range m.length).map (fun i => (i : ℚ))
      match candidatesIds with
      | none => .ok ⟨b.k, some m, rangeIds⟩
      | some ids =>
        if 1 < ids.length then
          .error "The truth value of an array with more than one element is ambiguous"
        else if ids.length = 1 ∧ ids.getD 0 0 ≠ 0 then
          .ok ⟨b.k, some m, ids⟩
        else
          .ok ⟨b.k, some m, rangeIds⟩

/-- Embedding of `BruteForceTopK.call`: dot-product scores of every
query against every stored candidate, top-k selection per row, and a
gather of the stored identifiers at the selected positions.  Calling
before `load_index` raises; `tf.math.top_k` raises when fewer than k
candidates are indexed. -/
def BruteForceTopK.call (b : BruteForceTopK) (inputs : List (List ℚ))
    (kOpt : Option ℕ) : Except String (List (List ℚ) × List (List ℚ)) :=
  let k := kOpt.getD b.k
  match b.candidates with
  | none => .error "load_index should be called before"
  | some cands =>
    if cands.length < k then
      .error "top_k requires the input to have at least k entries on the last axis"
    else
      let rows := inputs.map (fun q =>
        let scores := cands.map (fun c => dot q c)
        (topKSel k scores).map (fun j => (scores.getD j 0, b.identifiers.getD j 0)))
      .ok (rows.map (fun r => r.map Prod.fst), rows.map (fun r => r.map Prod.snd))

/-- Tabular data: a Python dict from feature names to tensors, in
insertion order with unique keys. -/
def TD : Type := List (String × Tens)

/-- Key list of a tabular-data dict. -/
def TD.keys (d : TD) : List String := d.map Prod.fst

/-- Value list of a tabular-data dict, in insertion order. -/
def TD.values (d : TD) : List Tens := d.map Prod.snd

/-- Python subscript `d[key]`, raising `KeyError` on a missing key. -/
def TD.getKey (d : TD) (key : String) : Except String Tens :=
  match List.lookup key d with
  | some t => .ok t
  | none => .error ("KeyError: " ++ key)

/-- Names of the query and item entries of a `DotProduct` layer. -/
structure DotProductCfg where
  query_name : String
  item_name : String

/-- Embedding of `DotProduct.call`: the sum over the last axis of the
elementwise product of the query and item embeddings, keeping the
reduced axis. -/
def DotProduct.call (cfg : DotProductCfg) (inputs : TD) : Except String Tens := do
  let q ← inputs.getKey cfg.query_name
  let it ← inputs.getKey cfg.item_name
  .ok (Tens.reduceSumLastKeep (Tens.mul q it))

/-- Modelled from the spec: the `Items` value produced by the negative
samplers (`merlin.models.tf.predictions.sampling.base` is not part of
this repository).  It carries the sampled item ids and, via its
metadata, their embeddings. -/
structure Items where
  id : Tens
  embedding : Tens

/-- Modelled from the spec: combining two sampled-item collections
(`Items` addition) concatenates their ids and their embeddings along
the batch axis. -/
def Items.add (a b : Items) : Items :=
  ⟨a.id.concat0 b.id, a.embedding.concat0 b.embedding⟩

/-- Lowest finite value of a float32, `merlin.models.utils.constants.MIN_FLOAT`. -/
def MIN_FLOAT : ℚ := -340282346638528859811704183484516925440

/-- Modelled from the spec: `rescore_false_negatives` from
`merlin.models.tf.utils.tf_utils` (not part of this repository).  Every
sampled negative whose item id equals the row's positive item id has its
score replaced by the configured false-negative score; all other scores
are unchanged.  The second component masks the valid (non-false)
negatives. -/
def rescore_false_negatives (positive_item_ids : List ℚ)
    (neg_samples_item_ids : List ℚ) (negative_scores : List (List ℚ))
    (false_negatives_score : ℚ) : List (List ℚ) × List (List Bool) :=
  ((positive_item_ids.zip negative_scores).map (fun pr =>
      (neg_samples_item_ids.zip pr.2).map (fun nc =>
        if nc.1 = pr.1 then false_negatives_score else nc.2)),
   positive_item_ids.map (fun p => neg_samples_item_ids.map (fun n => !(n = p))))

/-- Configuration of a `ContrastiveDotProduct` layer: feature names,
the false-negative downscoring switch and score, and the negative
samplers (each modelled as the function a sampler layer computes on the
positive items of the batch). -/
structure ContrastiveCfg where
  query_name : String
  item_name : String
  query_id_name : String
  item_id_name : String
  downscore_false_negatives : Bool
  false_negative_score : ℚ
  negative_samplers : List (Items → Items)

/-- Embedding of `ContrastiveDotProduct.get_id_and_embedding`: the
embedding comes from the layer inputs; the ids come from the inputs
when a `{key}_id` entry is present and from the batch features
otherwise. -/
def get_id_and_embedding (key feature_name : String) (inputs features : TD) :
    Except String (Tens × Tens) := do
  let embedding ← inputs.getKey key
  if (key ++ "_id") ∈ inputs.keys then do
    let ids ← inputs.getKey (key ++ "_id")
    .ok (ids, embedding)
  else do
    let ids ← features.getKey feature_name
    .ok (ids, embedding)

/-- Embedding of `ContrastiveDotProduct.sample_negatives`: every sampler
returning at least one item contributes; with none the raising statement
itself fails, because it reads the attribute `self.samplers`, which does
not exist (the field is `negative_samplers`); with several the
contributions are summed. -/
def sample_negatives (samplers : List (Items → Items)) (positive_items : Items) :
    Except String Items :=
  let negative_items := (samplers.map (fun s => s positive_items)).filter
    (fun it => 0 < it.id.dim0)
  if negative_items.length = 0 then
    .error "AttributeError: ContrastiveDotProduct object has no attribute samplers"
  else if 1 < negative_items.length then
    .ok (negative_items.foldl Items.add ⟨.arr [], .arr []⟩)
  else
    .ok (negative_items.headD ⟨.arr [], .arr []⟩)

/-- Result of a prediction block: the output scores and the target
matrix. -/
structure Prediction where
  outputs : Tens
  targets : Tens

/-- View of a rank-2 tensor as a matrix, raising on other ranks (as the
TensorFlow matrix ops would). -/
def expectMatrix (t : Tens) : Except String (List (List ℚ)) :=
  match t.toMatrix with
  | some m => .ok m
  | none => .error "expected a rank-2 tensor"

/-- View of a rank-1 tensor as a vector, raising on other ranks. -/
def expectVec (t : Tens) : Except String (List ℚ) :=
  match t.toVec with
  | some v => .ok v
  | none => .error "expected a rank-1 tensor"

/-- Embedding of `ContrastiveDotProduct.call`: the positive dot-product
scores and the query-against-sampled-negatives scores are concatenated
(positives in column 0), false negatives are optionally rescored, the
output is cast to float32 (the identity on exact rationals), and the
target matrix carries ones in column 0 and zeros elsewhere.  The final
squeeze is guarded by a rank comparison that never holds for the rank-2
outputs and targets built here. -/
def ContrastiveDotProduct.call (cfg : ContrastiveCfg) (inputs features : TD) :
    Except String Prediction := do
  let qpair ← get_id_and_embedding cfg.query_name cfg.query_id_name inputs features
  let ppair ← get_id_and_embedding cfg.item_name cfg.item_id_name inputs features
  let neg_items ← sample_negatives cfg.negative_samplers ⟨ppair.1, ppair.2⟩
  let positive_scores ← DotProduct.call ⟨cfg.query_name, cfg.item_name⟩ inputs
  let query_emb ← expectMatrix qpair.2
  let neg_emb ← expectMatrix neg_items.embedding
  let raw_negative_scores := matmulT query_emb neg_emb
  let negative_scores ←
    if cfg.downscore_false_negatives then do
      let pos_ids ← expectVec ppair.1
      let neg_ids ← expectVec neg_items.id
      .ok (rescore_false_negatives pos_ids neg_ids raw_negative_scores
        cfg.false_negative_score).1
    else
      .ok raw_negative_scores
  let pos_matrix ← expectMatrix positive_scores
  let outputs := List.zipWith (fun a b => a ++ b) pos_matrix negative_scores
  let targets := outputs.map (fun r => (1 : ℚ) :: List.replicate (r.length - 1) 0)
  let outputsT := Tens.ofMatrix outputs
  let targetsT := Tens.ofMatrix targets
  let outputsT := if targetsT.rank = outputsT.rank - 1 then outputsT.tsqueeze else outputsT
  .ok ⟨outputsT, targetsT⟩

/-!
Embedding of the tabular aggregation operators
(`merlin_models/tf/tabular/aggregation.py`).  Python dicts are mutable,
so every `call` returns both its result (an `Except` for the raising
paths) and the dict as the caller observes it afterwards.
-/

/-- Modelled from the spec: `TabularAggregation._expand_non_sequential_features`
lives in `merlin_models.tf.core`, which is not part of this repository,
and the spec does not describe it.  Over the uniformly shaped inputs the
claims quantify over it changes nothing, and it never removes keys; it
is modelled as the identity. -/
def expandNonSequential (d : TD) : TD := d

/-- Embedding of `ElementwiseFeatureAggregation._check_input_shapes_equal`:
the set of the feature shapes must have exactly one element. -/
def checkInputShapesEqual (d : TD) : Except String Unit :=
  if ((TD.values d).map Tens.shape).dedup.length = 1 then .ok ()
  else .error "The shapes of all input features are not equal"

/-- Modelled from the spec: `TabularAggregation._check_concat_shapes`
(in `merlin_models.tf.core`, not part of this repository) requires all
feature dimensions except the last one to match. -/
def checkConcatShapes (d : TD) : Except String Unit :=
  if 1 < ((TD.values d).map (fun v => v.shape.dropLast)).dedup.length then
    .error "All features dimensions except the last one must match"
  else .ok ()

/-- Keys of a dict in lexicographically sorted order (`sorted(inputs.keys())`). -/
def TD.sortedKeys (d : TD) : List String :=
  (TD.keys d).insertionSort (fun a b => a ≤ b)

/-- Values of a dict in sorted-key order. -/
def TD.sortedValues (d : TD) : List Tens :=
  (TD.sortedKeys d).map (fun k => (List.lookup k d).getD (.scal 0))

/-- Concatenation of a list of tensors along the last axis
(`tf.concat(ts, axis=-1)`). -/
def concatLastAll : List Tens → Tens
  | [] => .arr []
  | t :: ts => ts.foldl Tens.concatLast t

/-- Embedding of `ConcatFeatures.call`: features are expanded, their
shapes (but the last axis) checked, cast to the output dtype (the
identity on exact rationals) and concatenated in sorted key order. -/
def ConcatFeatures.call (d : TD) : Except String Tens × TD :=
  let d2 := expandNonSequential d
  ((do
    let _ ← checkConcatShapes d2
    .ok (concatLastAll (TD.sortedValues d2))), d2)

/-- Embedding of `StackFeatures.call` at axis 0 (the instantiation the
elementwise aggregations use): features are expanded, checked, cast (the
identity here) and stacked along a new leading axis in sorted key
order. -/
def StackFeatures.call (d : TD) : Except String Tens × TD :=
  let d2 := expandNonSequential d
  ((do
    let _ ← checkConcatShapes d2
    .ok (Tens.arr (TD.sortedValues d2))), d2)

/-- Embedding of `Sum.call`: `tf.reduce_sum` over the list of the dict
values, which TensorFlow first converts to a stacked tensor (raising on
mismatched shapes). -/
def Sum.call (d : TD) : Except String Tens × TD :=
  (match TD.values d with
   | [] => .ok (.scal 0)
   | v :: vs =>
     if vs.all (fun u => u.shape == v.shape) then
       .ok (Tens.reduceSum0 (.arr (v :: vs)))
     else .error "cannot stack the feature values: mismatched shapes",
   d)

/-- Pointwise application of an optional activation function. -/
def applyActivation : Option (ℚ → ℚ) → Tens → Tens
  | none, t => t
  | some f, t => t.tmap f

/-- Embedding of Python `dict.pop(key)`: the value together with the
dict without that key, or `none` (a `KeyError`) when absent. -/
def TD.pop (d : TD) (key : String) : Option (Tens × TD) :=
  match List.lookup key d with
  | some v => some (v, List.eraseP (fun p => p.1 == key) d)
  | none => none

/-- Configuration of `SumResidual`: the activation (relu by default)
and the name of the shortcut feature. -/
structure SumResidualCfg where
  activation : Option (ℚ → ℚ)
  shortcut_name : String

/-- Embedding of `SumResidual.call`: the shortcut feature is popped off
the input dict (mutating it), every remaining feature is summed with the
shortcut and activated, and a single remaining feature is returned bare
rather than as a dict. -/
def SumResidual.call (cfg : SumResidualCfg) (d : TD) :
    Except String (Tens ⊕ TD) × TD :=
  match TD.pop d cfg.shortcut_name with
  | none => (.error ("KeyError: " ++ cfg.shortcut_name), d)
  | some (shortcut, rest) =>
    if (TD.values rest).all (fun v => v.shape == shortcut.shape) then
      let outputs : TD := rest.map (fun p =>
        (p.1, applyActivation cfg.activation (Tens.reduceSum0 (.arr [p.2, shortcut]))))
      (if outputs.length = 1 then
        .ok (.inl (outputs.headD ("", .scal 0)).2)
       else .ok (.inr outputs), rest)
    else
      (.error "cannot stack a feature with the shortcut: mismatched shapes", rest)

/-- Rank-1 addition with broadcasting of a length-1 operand over the
last axis. -/
def rowBroadcastAdd (xs ys : List ℚ) : List ℚ :=
  if xs.length = 1 then ys.map (fun y => xs.getD 0 0 + y)
  else if ys.length = 1 then xs.map (fun x => x + ys.getD 0 0)
  else List.zipWith (fun a b => a + b) xs ys

/-- Tensor addition with last-axis broadcasting on matrices, as the
Python `+` on two rank-2 tensors. -/
def broadcastAddLast (a b : Tens) : Tens :=
  match a.toMatrix, b.toMatrix with
  | some am, some bm => Tens.ofMatrix (List.zipWith rowBroadcastAdd am bm)
  | _, _ => a.add b

/-- Configuration of `AddLeft`: the name of the left feature and the
dense `wide_logit` layer projecting it to one unit. -/
structure AddLeftCfg where
  left_name : String
  wideLogit : Tens → Tens

/-- Embedding of `AddLeft.call`: the left feature is popped off the
input dict (mutating it), projected to one unit unless its last axis
already has size 1, and added (broadcasting) to the concatenation of the
remaining features. -/
def AddLeft.call (cfg : AddLeftCfg) (d : TD) : Except String Tens × TD :=
  match TD.pop d cfg.left_name with
  | none => (.error ("KeyError: " ++ cfg.left_name), d)
  | some (left, rest) =>
    let left := if left.shape.getLastD 0 ≠ 1 then cfg.wideLogit left else left
    match (ConcatFeatures.call rest).1 with
    | .ok c => (.ok (broadcastAddLast left c), rest)
    | .error e => (.error e, rest)

/-- Embedding of `ElementwiseSum.call`: features are expanded, their
shapes checked equal, stacked along axis 0 in sorted key order and
summed along that axis. -/
def ElementwiseSum.call (d : TD) : Except String Tens × TD :=
  let d2 := expandNonSequential d
  ((do
    let _ ← checkInputShapesEqual d2
    let stacked ← (StackFeatures.call d2).1
    .ok (Tens.reduceSum0 stacked)), d2)

/-- Configuration of `ElementwiseSumItemMulti`: the item-id column name
taken from the schema. -/
structure ESIMCfg where
  item_id_column_name : String

/-- Embedding of `ElementwiseSumItemMulti.call`: the item-id feature
(looked up in the inputs, modelled from the spec for the schema helper
`get_item_ids_from_inputs` which is not part of this repository)
multiplies the sum of the remaining features (the bare feature when only
one remains). -/
def ElementwiseSumItemMulti.call (cfg : ESIMCfg) (d : TD) :
    Except String Tens × TD :=
  ((do
    let item_id_inputs ← TD.getKey d cfg.item_id_column_name
    let d2 := expandNonSequential d
    let _ ← checkInputShapesEqual d2
    let other : TD := List.filter (fun p => p.1 ≠ cfg.item_id_column_name) d2
    let other_t ←
      if 1 < other.length then do
        let s ← (StackFeatures.call other).1
        .ok (Tens.reduceSum0 s)
      else
        .ok ((TD.values other).headD (.scal 0))
    .ok (item_id_inputs.mul other_t)), expandNonSequential d)

/-!
Helper lemmas.
-/

/-- List indexing with a default, mapped through a function, inside the
valid range. -/
theorem getD_map_of_lt {α β : Type _} (f : α → β) (l : List α) (i : ℕ)
    (h : i < l.length) (d : β) (e : α) : (l.map f).getD i d = f (l.getD i e) := by
  rw [List.getD_eq_getElem?_getD, List.getD_eq_getElem?_getD, List.getElem?_map,
    List.getElem?_eq_getElem h]
  rfl

/-- Pointwise multiplication of two scalar lists. -/
theorem mulList_map_scal (r s : List ℚ) :
    Tens.mulList (r.map Tens.scal) (s.map Tens.scal) =
      (List.zipWith (fun a b => a * b) r s).map Tens.scal := by
  induction r generalizing s with
  | nil => cases s <;> simp [Tens.mulList]
  | cons a r ih =>
    cases s with
    | nil => simp [Tens.mulList]
    | cons b s => simp [Tens.mulList, Tens.mul, ih]

/-- Elementwise multiplication of two rank-1 tensors. -/
theorem mul_ofVec (r s : List ℚ) :
    Tens.mul (Tens.ofVec r) (Tens.ofVec s) =
      Tens.ofVec (List.zipWith (fun a b => a * b) r s) := by
  simp [Tens.ofVec, Tens.mul, mulList_map_scal]

/-- Elementwise multiplication of two rank-2 tensors, row by row. -/
theorem mulList_map_ofVec (q it : List (List ℚ)) :
    Tens.mulList (q.map Tens.ofVec) (it.map Tens.ofVec) =
      (q.zip it).map (fun p => Tens.ofVec (List.zipWith (fun a b => a * b) p.1 p.2)) := by
  induction q generalizing it with
  | nil => cases it <;> simp [Tens.mulList]
  | cons r q ih =>
    cases it with
    | nil => simp [Tens.mulList]
    | cons s it => simp [Tens.mulList, mul_ofVec, ih]

/-- Summation over the last axis of a rank-1 tensor. -/
theorem reduceSumLastKeep_ofVec (v : List ℚ) :
    Tens.reduceSumLastKeep (Tens.ofVec v) = Tens.arr [Tens.scal v.sum] := by
  rw [Tens.ofVec, Tens.reduceSumLastKeep]
  have hall : (v.map Tens.scal).all Tens.isScal = true := by
    simp [List.all_map, Tens.isScal, Function.comp]
  rw [if_pos hall]
  have huv : (v.map Tens.scal).map Tens.unscal = v := by
    rw [List.map_map]
    have h2 : Tens.unscal ∘ Tens.scal = id := rfl
    rw [h2, List.map_id]
  rw [huv]

/-- Summation over the last axis of a nonempty rank-2 tensor. -/
theorem reduceSumLastKeep_ofMatrix (rows : List (List ℚ)) (h : rows ≠ []) :
    Tens.reduceSumLastKeep (Tens.ofMatrix rows) =
      Tens.ofMatrix (rows.map (fun r => [r.sum])) := by
  cases rows with
  | nil => exact absurd rfl h
  | cons r rs =>
    rw [Tens.ofMatrix, Tens.reduceSumLastKeep]
    have hall : ¬ (((r :: rs).map Tens.ofVec).all Tens.isScal = true) := by
      simp [Tens.ofVec, Tens.isScal]
    rw [if_neg hall]
    rw [List.attach_map_coe _ Tens.reduceSumLastKeep]
    rw [Tens.ofMatrix, List.map_map, List.map_map]
    refine congrArg Tens.arr (List.map_congr_left (fun a _ => ?_))
    exact reduceSumLastKeep_ofVec a

/-- Evaluation of `DotProduct.call` on a batch of rank-2 query and item
embeddings. -/
theorem dotProduct_call_eval (cfg : DotProductCfg) (inputs : TD)
    (q it : List (List ℚ))
    (hq : List.lookup cfg.query_name inputs = some (Tens.ofMatrix q))
    (hit : List.lookup cfg.item_name inputs = some (Tens.ofMatrix it))
    (hne : q ≠ []) (hlen : q.length = it.length) :
    DotProduct.call cfg inputs =
      .ok (Tens.ofMatrix ((q.zip it).map (fun p => [dot p.1 p.2]))) := by
  rw [DotProduct.call, TD.getKey, hq, TD.getKey, hit]
  show Except.ok (Tens.reduceSumLastKeep (Tens.mul (Tens.ofMatrix q) (Tens.ofMatrix it)))
    = _
  have hmul : Tens.mul (Tens.ofMatrix q) (Tens.ofMatrix it) =
      Tens.ofMatrix ((q.zip it).map (fun p => List.zipWith (fun a b => a * b) p.1 p.2)) := by
    rw [Tens.ofMatrix, Tens.ofMatrix, Tens.mul, mulList_map_ofVec, Tens.ofMatrix,
      List.map_map]
    rfl
  rw [hmul]
  have hzne : (q.zip it).map (fun p => List.zipWith (fun a b => a * b) p.1 p.2) ≠ [] := by
    cases q with
    | nil => exact absurd rfl hne
    | cons r rs =>
      cases it with
      | nil => simp at hlen
      | cons s ss => simp
  rw [reduceSumLastKeep_ofMatrix _ hzne, List.map_map]
  refine congrArg (fun m => Except.ok (Tens.ofMatrix m)) ?_
  refine List.map_congr_left (fun p _ => ?_)
  rfl

/-- C4.  Dot-product scoring: for every input mapping containing the
query embedding and the item embedding (as rank-2 batch matrices of a
common width), `DotProduct.call` returns the inner product of the two
embeddings, computed as the sum over the last axis of their elementwise
product, with the last dimension kept, so every query-item pair yields a
length-1 score vector. -/
theorem C4_dot_product_scoring (cfg : DotProductCfg) (inputs : TD)
    (q it : List (List ℚ)) (w : ℕ)
    (hq : List.lookup cfg.query_name inputs = some (Tens.ofMatrix q))
    (hit : List.lookup cfg.item_name inputs = some (Tens.ofMatrix it))
    (hne : q ≠ []) (hlen : q.length = it.length)
    (hwq : ∀ r ∈ q, r.length = w) (hwi : ∀ r ∈ it, r.length = w) :
    DotProduct.call cfg inputs =
      .ok (Tens.ofMatrix ((q.zip it).map (fun p => [dot p.1 p.2]))) :=
  dotProduct_call_eval cfg inputs q it hq hit hne hlen

/-- C4 witness: a concrete batch with one query-item pair. -/
theorem C4_dot_product_scoring_witness :
    DotProduct.call ⟨"query", "item"⟩
      [("query", Tens.ofMatrix [[1, 2]]), ("item", Tens.ofMatrix [[3, 4]])] =
      .ok (Tens.ofMatrix [[11]]) := by
  have h := C4_dot_product_scoring ⟨"query", "item"⟩
      [("query", Tens.ofMatrix [[1, 2]]), ("item", Tens.ofMatrix [[3, 4]])]
      [[1, 2]] [[3, 4]] 2 rfl rfl (by simp) rfl
      (by intro r hr; simp at hr; rw [hr]; rfl)
      (by intro r hr; simp at hr; rw [hr]; rfl)
  have hd : ((([[1, 2]] : List (List ℚ)).zip [[3, 4]]).map (fun p => [dot p.1 p.2])) =
      [[(11 : ℚ)]] := by
    norm_num [dot]
  rw [hd] at h
  exact h

/-- C5.  Candidate-index precondition: before `load_index` has run, the
candidates are `None` and `call` raises the load_index `ValueError`;
a successful `load_index` stores the candidates, after which `call`
never raises that error; and `load_index` itself raises a `ValueError`
whenever the candidates embeddings tensor is not 2D. -/
theorem C5_candidate_index_precondition (b b' : BruteForceTopK)
    (inputs : List (List ℚ)) (kOpt : Option ℕ) (emb : Tens) (ids : Option (List ℚ)) :
    (b.candidates = none →
      b.call inputs kOpt = .error "load_index should be called before") ∧
    (b.load_index emb ids = .ok b' →
      b'.call inputs kOpt ≠ .error "load_index should be called before") ∧
    (emb.rank ≠ 2 →
      b.load_index emb ids = .error "The candidates embeddings tensor must be 2D") := by
  refine ⟨fun h => by rw [BruteForceTopK.call, h], fun h => ?_, fun h => by
    rw [BruteForceTopK.load_index, if_pos h]⟩
  have hcand : ∃ m, b'.candidates = some m := by
    rw [BruteForceTopK.load_index] at h
    by_cases h2 : emb.rank ≠ 2
    · rw [if_pos h2] at h; exact absurd h (by simp)
    · rw [if_neg h2] at h
      cases hm : emb.toMatrix with
      | none => rw [hm] at h; exact absurd h (by simp)
      | some m =>
        rw [hm] at h
        cases ids with
        | none =>
          simp only at h
          cases h
          exact ⟨m, rfl⟩
        | some l =>
          simp only at h
          by_cases h3 : 1 < l.length
          · rw [if_pos h3] at h; exact absurd h (by simp)
          · rw [if_neg h3] at h
            by_cases h4 : l.length = 1 ∧ l.getD 0 0 ≠ 0
            · rw [if_pos h4] at h; cases h; exact ⟨m, rfl⟩
            · rw [if_neg h4] at h; cases h; exact ⟨m, rfl⟩
  obtain ⟨m, hm⟩ := hcand
  rw [BruteForceTopK.call, hm]
  by_cases hkm : m.length < (kOpt.getD b'.k)
  · simp only [if_pos hkm]
    intro hcontra
    have : "top_k requires the input to have at least k entries on the last axis" =
        "load_index should be called before" := by
      exact Except.error.inj hcontra
    simp at this
  · simp only [if_neg hkm]
    intro hcontra
    exact absurd hcontra (by simp)

/-- C5 witness: the three branches at concrete blocks and tensors. -/
theorem C5_candidate_index_precondition_witness :
    (BruteForceTopK.call ⟨2, none, []⟩ [[1]] none =
      .error "load_index should be called before") ∧
    (BruteForceTopK.call
        ⟨2, some [[1], [0], [2]], (List.range 3).map (fun i => (i : ℚ))⟩ [[1]] none ≠
      .error "load_index should be called before") ∧
    (BruteForceTopK.load_index ⟨2, none, []⟩ (Tens.scal 5) none =
      .error "The candidates embeddings tensor must be 2D") := by
  refine ⟨(C5_candidate_index_precondition ⟨2, none, []⟩ ⟨2, none, []⟩ [[1]] none
      (Tens.scal 5) none).1 rfl, ?_, ?_⟩
  · refine (C5_candidate_index_precondition ⟨2, none, []⟩
      ⟨2, some [[1], [0], [2]], (List.range 3).map (fun i => (i : ℚ))⟩ [[1]] none
      (Tens.ofMatrix [[1], [0], [2]]) none).2.1 ?_
    rfl
  · exact (C5_candidate_index_precondition ⟨2, none, []⟩ ⟨2, none, []⟩ [[1]] none
      (Tens.scal 5) none).2.2 (by decide)

/-- C6.  Negative-sampling failure, as the code actually behaves: when
every configured sampler returns zero items the raising statement reads
the nonexistent attribute `self.samplers` (the field is named
`negative_samplers`), so an `AttributeError` is raised instead of the
intended exception naming the samplers. -/
theorem C6_sampler_attribute_error :
    sample_negatives [fun _ => ⟨Tens.arr [], Tens.arr []⟩]
      ⟨Tens.arr [Tens.scal 1], Tens.arr [Tens.arr [Tens.scal 1]]⟩ =
      .error "AttributeError: ContrastiveDotProduct object has no attribute samplers" := by
  rfl

/-- C8 counterexample: the claim that only the omitted-ids case succeeds
is false; `load_index` with a single-element, nonzero ids tensor
succeeds and stores the given identifier. -/
theorem C8_single_id_succeeds :
    BruteForceTopK.load_index ⟨20, none, []⟩ (Tens.ofMatrix [[1, 2]]) (some [7]) =
      .ok ⟨20, some [[1, 2]], [7]⟩ := by
  rfl

/-- C8 (amended).  The Python truth test `if not candidates_ids` raises
for every ids tensor with more than one element, so `load_index` fails
before storing anything; the omitted-ids case defaults the identifiers to
`0..n-1`, and a single-element, nonzero ids tensor is kept as given (a
single zero id is silently replaced by the default range). -/
theorem C8_ids_truth_test (b : BruteForceTopK) (emb : Tens) (ids : List ℚ)
    (m : List (List ℚ)) (x : ℚ) :
    (1 < ids.length → ∃ msg, b.load_index emb (some ids) = .error msg) ∧
    (emb.rank = 2 → emb.toMatrix = some m →
      b.load_index emb none =
        .ok ⟨b.k, some m, (List.range m.length).map (fun i => (i : ℚ))⟩) ∧
    (emb.rank = 2 → emb.toMatrix = some m → x ≠ 0 →
      b.load_index emb (some [x]) = .ok ⟨b.k, some m, [x]⟩) ∧
    (emb.rank = 2 → emb.toMatrix = some m →
      b.load_index emb (some [0]) =
        .ok ⟨b.k, some m, (List.range m.length).map (fun i => (i : ℚ))⟩) := by
  refine ⟨fun h => ?_, fun h2 hm => ?_, fun h2 hm hx => ?_, fun h2 hm => ?_⟩
  · by_cases hr : emb.rank ≠ 2
    · exact ⟨_, by rw [BruteForceTopK.load_index, if_pos hr]⟩
    · cases hm : emb.toMatrix with
      | none => exact ⟨"invalid tensor value", by simp [BruteForceTopK.load_index, hr, hm]⟩
      | some m2 =>
        exact ⟨"The truth value of an array with more than one element is ambiguous",
          by simp [BruteForceTopK.load_index, hr, hm, h]⟩
  · simp [BruteForceTopK.load_index, h2, hm]
  · simp [BruteForceTopK.load_index, h2, hm, hx]
  · simp [BruteForceTopK.load_index, h2, hm]

/-- C8 witness: the amended behaviors at concrete tensors. -/
theorem C8_ids_truth_test_witness :
    (∃ msg, BruteForceTopK.load_index ⟨20, none, []⟩ (Tens.ofMatrix [[1, 2]])
      (some [5, 6]) = .error msg) ∧
    (BruteForceTopK.load_index ⟨20, none, []⟩ (Tens.ofMatrix [[1, 2], [3, 4]]) none =
      .ok ⟨20, some [[1, 2], [3, 4]], (List.range 2).map (fun i => (i : ℚ))⟩) ∧
    (BruteForceTopK.load_index ⟨20, none, []⟩ (Tens.ofMatrix [[1, 2]]) (some [9]) =
      .ok ⟨20, some [[1, 2]], [9]⟩) ∧
    (BruteForceTopK.load_index ⟨20, none, []⟩ (Tens.ofMatrix [[1, 2]]) (some [0]) =
      .ok ⟨20, some [[1, 2]], (List.range 1).map (fun i => (i : ℚ))⟩) := by
  have h1 := (C8_ids_truth_test ⟨20, none, []⟩ (Tens.ofMatrix [[1, 2]]) [5, 6]
    [[1, 2]] 9).1 (by decide)
  have h2 := (C8_ids_truth_test ⟨20, none, []⟩ (Tens.ofMatrix [[1, 2], [3, 4]]) [5, 6]
    [[1, 2], [3, 4]] 9).2.1 rfl rfl
  have h3 := (C8_ids_truth_test ⟨20, none, []⟩ (Tens.ofMatrix [[1, 2]]) [5, 6]
    [[1, 2]] 9).2.2.1 rfl rfl (by norm_num)
  have h4 := (C8_ids_truth_test ⟨20, none, []⟩ (Tens.ofMatrix [[1, 2]]) [5, 6]
    [[1, 2]] 9).2.2.2 rfl rfl
  exact ⟨h1, h2, h3, h4⟩

/-- Characterization of `topKSel`: it selects k distinct valid positions
whose scores are listed in non-increasing order and dominate the score of
every unselected position. -/
theorem topKSel_spec (k : ℕ) (row : List ℚ) (hk : k ≤ row.length) :
    (topKSel k row).length = k ∧
    (topKSel k row).Nodup ∧
    (∀ j ∈ topKSel k row, j < row.length) ∧
    List.Sorted (fun a c => c ≤ a) ((topKSel k row).map (fun j => row.getD j 0)) ∧
    (∀ j, j < row.length → j ∉ topKSel k row →
      ∀ i ∈ topKSel k row, row.getD j 0 ≤ row.getD i 0) := by
  have htot : IsTotal ℕ (fun i j => row.getD j 0 ≤ row.getD i 0) :=
    ⟨fun a b => le_total (row.getD b 0) (row.getD a 0)⟩
  have htr : IsTrans ℕ (fun i j => row.getD j 0 ≤ row.getD i 0) :=
    ⟨fun _ _ _ hab hbc => le_trans hbc hab⟩
  have hperm : List.Perm ((List.range row.length).insertionSort
      (fun i j => row.getD j 0 ≤ row.getD i 0)) (List.range row.length) :=
    List.perm_insertionSort _ _
  have hsorted : List.Sorted (fun i j => row.getD j 0 ≤ row.getD i 0)
      ((List.range row.length).insertionSort (fun i j => row.getD j 0 ≤ row.getD i 0)) :=
    @List.sorted_insertionSort ℕ _ _ htot htr _
  have hlenL : ((List.range row.length).insertionSort
      (fun i j => row.getD j 0 ≤ row.getD i 0)).length = row.length := by
    rw [hperm.length_eq, List.length_range]
  have hsub : List.Sublist (topKSel k row) ((List.range row.length).insertionSort
      (fun i j => row.getD j 0 ≤ row.getD i 0)) := List.take_sublist _ _
  have hmemL : ∀ j ∈ topKSel k row, j < row.length := by
    intro j hj
    have : j ∈ List.range row.length := hperm.mem_iff.mp (hsub.subset hj)
    exact List.mem_range.mp this
  refine ⟨?_, ?_, hmemL, ?_, ?_⟩
  · rw [topKSel, List.length_take, hlenL]
    exact Nat.min_eq_left hk
  · exact (hperm.symm.nodup (List.nodup_range _)).sublist hsub
  · exact ((hsorted.sublist hsub).map _ (fun a b h => h))
  · intro j hj hnot i hi
    have hjL : j ∈ (List.range row.length).insertionSort
        (fun i j => row.getD j 0 ≤ row.getD i 0) :=
      hperm.mem_iff.mpr (List.mem_range.mpr hj)
    have hsplit := (List.take_append_drop k ((List.range row.length).insertionSort
      (fun i j => row.getD j 0 ≤ row.getD i 0))).symm
    have hpw := hsorted
    rw [hsplit] at hpw hjL
    rcases List.mem_append.mp hjL with hl | hr
    · exact absurd hl hnot
    · exact (List.pairwise_append.mp hpw).2.2 i hi j hr

/-- C1.  Top-k extraction: for every loaded candidate index and every
batch of query embeddings, `BruteForceTopK.call` returns two 2D tensors
with k columns per query row: in each row, k pairwise distinct candidate
positions are scored by the dot product of the query with the indexed
candidates, the scores appear in non-increasing order and dominate the
score of every unselected candidate, and the second tensor carries the
stored identifiers of exactly those candidates (a lookup through the
stored ids, not the raw positions). -/
theorem C1_topk_extraction (b : BruteForceTopK) (cands inputs : List (List ℚ))
    (kOpt : Option ℕ) (k : ℕ) (hc : b.candidates = some cands)
    (hk : kOpt.getD b.k = k) (hkn : k ≤ cands.length) :
    ∃ S I, b.call inputs kOpt = .ok (S, I) ∧
      S.length = inputs.length ∧ I.length = inputs.length ∧
      ∀ i, i < inputs.length →
        ∃ sel : List ℕ,
          sel.length = k ∧ sel.Nodup ∧ (∀ j ∈ sel, j < cands.length) ∧
          S.getD i [] = sel.map (fun j => dot (inputs.getD i []) (cands.getD j [])) ∧
          I.getD i [] = sel.map (fun j => b.identifiers.getD j 0) ∧
          List.Sorted (fun a c => c ≤ a) (S.getD i []) ∧
          (∀ j, j < cands.length → j ∉ sel →
            ∀ s ∈ S.getD i [], dot (inputs.getD i []) (cands.getD j []) ≤ s) := by
  subst hk
  have hnlt : ¬ (cands.length < kOpt.getD b.k) := Nat.not_lt.mpr hkn
  refine ⟨(inputs.map (fun q =>
      (topKSel (kOpt.getD b.k) (cands.map (fun c => dot q c))).map
        (fun j => ((cands.map (fun c => dot q c)).getD j 0, b.identifiers.getD j 0)))).map
      (fun r => r.map Prod.fst),
    (inputs.map (fun q =>
      (topKSel (kOpt.getD b.k) (cands.map (fun c => dot q c))).map
        (fun j => ((cands.map (fun c => dot q c)).getD j 0, b.identifiers.getD j 0)))).map
      (fun r => r.map Prod.snd), ?_, by simp, by simp, ?_⟩
  · simp only [BruteForceTopK.call, hc]
    rw [if_neg hnlt]
  · intro i hi
    have hkrow : kOpt.getD b.k ≤ (cands.map (fun c => dot (inputs.getD i []) c)).length := by
      rw [List.length_map]; exact hkn
    obtain ⟨hlen, hnd, hmem, hsort, hout⟩ :=
      topKSel_spec (kOpt.getD b.k) (cands.map (fun c => dot (inputs.getD i []) c)) hkrow
    have hrowS : ((inputs.map (fun q =>
        (topKSel (kOpt.getD b.k) (cands.map (fun c => dot q c))).map
          (fun j => ((cands.map (fun c => dot q c)).getD j 0, b.identifiers.getD j 0)))).map
        (fun r => r.map Prod.fst)).getD i [] =
        (topKSel (kOpt.getD b.k) (cands.map (fun c => dot (inputs.getD i []) c))).map
          (fun j => (cands.map (fun c => dot (inputs.getD i []) c)).getD j 0) := by
      rw [getD_map_of_lt _ _ i (by simpa using hi) [] [],
        getD_map_of_lt _ _ i hi [] [], List.map_map]
      rfl
    have hrowI : ((inputs.map (fun q =>
        (topKSel (kOpt.getD b.k) (cands.map (fun c => dot q c))).map
          (fun j => ((cands.map (fun c => dot q c)).getD j 0, b.identifiers.getD j 0)))).map
        (fun r => r.map Prod.snd)).getD i [] =
        (topKSel (kOpt.getD b.k) (cands.map (fun c => dot (inputs.getD i []) c))).map
          (fun j => b.identifiers.getD j 0) := by
      rw [getD_map_of_lt _ _ i (by simpa using hi) [] [],
        getD_map_of_lt _ _ i hi [] [], List.map_map]
      rfl
    have hmem' : ∀ j ∈ topKSel (kOpt.getD b.k)
        (cands.map (fun c => dot (inputs.getD i []) c)), j < cands.length := by
      intro j hj
      have := hmem j hj
      rwa [List.length_map] at this
    have hscore : ∀ j, j < cands.length →
        (cands.map (fun c => dot (inputs.getD i []) c)).getD j 0 =
          dot (inputs.getD i []) (cands.getD j []) := by
      intro j hj
      exact getD_map_of_lt _ _ j hj 0 []
    refine ⟨topKSel (kOpt.getD b.k) (cands.map (fun c => dot (inputs.getD i []) c)),
      hlen, hnd, hmem', ?_, hrowI, ?_, ?_⟩
    · rw [hrowS]
      exact List.map_congr_left (fun j hj => hscore j (hmem' j hj))
    · rw [hrowS]
      exact hsort
    · intro j hj hnot s hs
      rw [hrowS] at hs
      obtain ⟨a, ha, rfl⟩ := List.mem_map.mp hs
      have := hout j (by rw [List.length_map]; exact hj) hnot a ha
      rwa [hscore j hj] at this

/-- C1 witness: a two-candidate top-2 retrieval on a concrete index. -/
theorem C1_topk_extraction_witness :
    ∃ S I, BruteForceTopK.call ⟨2, some [[1], [0], [2]], [10, 20, 30]⟩ [[1]] none =
        .ok (S, I) ∧
      S.length = 1 ∧ I.length = 1 ∧
      ∀ i, i < 1 →
        ∃ sel : List ℕ,
          sel.length = 2 ∧ sel.Nodup ∧
            (∀ j ∈ sel, j < ([[1], [0], [2]] : List (List ℚ)).length) ∧
          S.getD i [] = sel.map (fun j =>
            dot (([[(1 : ℚ)]] : List (List ℚ)).getD i [])
              (([[1], [0], [2]] : List (List ℚ)).getD j [])) ∧
          I.getD i [] = sel.map (fun j => ([10, 20, 30] : List ℚ).getD j 0) ∧
          List.Sorted (fun a c => c ≤ a) (S.getD i []) ∧
          (∀ j, j < ([[1], [0], [2]] : List (List ℚ)).length → j ∉ sel →
            ∀ s ∈ S.getD i [],
              dot (([[(1 : ℚ)]] : List (List ℚ)).getD i [])
                (([[1], [0], [2]] : List (List ℚ)).getD j []) ≤ s) := by
  exact C1_topk_extraction ⟨2, some [[1], [0], [2]], [10, 20, 30]⟩ [[1], [0], [2]]
    [[1]] none 2 rfl rfl (by norm_num)

/-- Rank-1 round trip through the nested-list view. -/
theorem toVec_ofVec (v : List ℚ) : (Tens.ofVec v).toVec = some v := by
  rw [Tens.ofVec, Tens.toVec]
  have hall : (v.map Tens.scal).all Tens.isScal = true := by
    simp [List.all_map, Tens.isScal, Function.comp]
  rw [if_pos hall]
  have huv : (v.map Tens.scal).map Tens.unscal = v := by
    rw [List.map_map]
    have h2 : Tens.unscal ∘ Tens.scal = id := rfl
    rw [h2, List.map_id]
  rw [huv]

/-- Rank-2 round trip through the nested-list view. -/
theorem toMatrix_ofMatrix (m : List (List ℚ)) : (Tens.ofMatrix m).toMatrix = some m := by
  induction m with
  | nil => rfl
  | cons r rs ih =>
    rw [Tens.ofMatrix, Tens.toMatrix] at ih ⊢
    simp only [List.map_cons, List.mapM_cons, toVec_ofVec]
    rw [ih]
    rfl

/-- Successful lookups witness key membership. -/
theorem lookup_mem_keys {d : TD} {k : String} {v : Tens}
    (h : List.lookup k d = some v) : k ∈ TD.keys d := by
  induction d with
  | nil => simp [List.lookup] at h
  | cons p d ih =>
    rw [List.lookup] at h
    by_cases hk : k = p.1
    · exact hk ▸ List.mem_cons_self _ _
    · have hbeq : (k == p.1) = false := by simpa using hk
      simp only [hbeq] at h
      exact List.mem_cons_of_mem _ (ih h)

/-- Indexing a zipWith with a default, inside the valid range. -/
theorem getD_zipWith_of_lt {α β γ : Type _} (f : α → β → γ) (as : List α)
    (bs : List β) (i : ℕ) (ha : i < as.length) (hb : i < bs.length)
    (d : γ) (da : α) (db : β) :
    (List.zipWith f as bs).getD i d = f (as.getD i da) (bs.getD i db) := by
  rw [List.getD_eq_getElem?_getD, List.getElem?_zipWith,
    List.getElem?_eq_getElem ha, List.getElem?_eq_getElem hb,
    List.getD_eq_getElem?_getD, List.getD_eq_getElem?_getD,
    List.getElem?_eq_getElem ha, List.getElem?_eq_getElem hb]
  rfl

/-- Evaluation of `sample_negatives` with a single sampler returning a
nonempty batch of items. -/
theorem sample_negatives_single (negIds : List ℚ) (negE : List (List ℚ))
    (pos : Items) (hnne : negIds ≠ []) :
    sample_negatives [fun _ => ⟨Tens.ofVec negIds, Tens.ofMatrix negE⟩] pos =
      .ok ⟨Tens.ofVec negIds, Tens.ofMatrix negE⟩ := by
  have hdim : 0 < Tens.dim0 (Tens.ofVec negIds) := by
    rw [Tens.ofVec, Tens.dim0, List.length_map]
    exact List.length_pos.mpr hnne
  simp [sample_negatives, hdim]

/-- Evaluation of `get_id_and_embedding` when the inputs provide both
the embedding and the `_id` entry. -/
theorem get_id_and_embedding_eval (key fname : String) (inputs features : TD)
    (emb ids : Tens)
    (hk : List.lookup key inputs = some emb)
    (hid : List.lookup (key ++ "_id") inputs = some ids) :
    get_id_and_embedding key fname inputs features = .ok (ids, emb) := by
  rw [get_id_and_embedding]
  simp only [TD.getKey, hk, hid, if_pos (lookup_mem_keys hid)]
  rfl

/-- Rank of a matrix tensor with a nonempty first row. -/
theorem rank_ofMatrix_cons (x : ℚ) (r : List ℚ) (rs : List (List ℚ)) :
    Tens.rank (Tens.ofMatrix ((x :: r) :: rs)) = 2 := by
  simp [Tens.ofMatrix, Tens.ofVec, Tens.rank]

/-- Matrix view of a matrix tensor. -/
theorem expectMatrix_ofMatrix (m : List (List ℚ)) :
    expectMatrix (Tens.ofMatrix m) = .ok m := by
  rw [expectMatrix, toMatrix_ofMatrix]

/-- Vector view of a vector tensor. -/
theorem expectVec_ofVec (v : List ℚ) : expectVec (Tens.ofVec v) = .ok v := by
  rw [expectVec, toVec_ofVec]

/-- Evaluation of `ContrastiveDotProduct.call` on a batch of rank-2
query and item embeddings with a single sampler returning a nonempty
collection of negatives: the output concatenates the positive score
column with the (optionally rescored) negative scores, and the targets
carry a one in column 0 and zeros elsewhere. -/
theorem contrastive_call_eval (cfg : ContrastiveCfg) (inputs features : TD)
    (Q It negE : List (List ℚ)) (qIds pIds negIds : List ℚ) (flag : Bool)
    (hsamp : cfg.negative_samplers = [fun _ => ⟨Tens.ofVec negIds, Tens.ofMatrix negE⟩])
    (hflag : cfg.downscore_false_negatives = flag)
    (hq : List.lookup cfg.query_name inputs = some (Tens.ofMatrix Q))
    (hit : List.lookup cfg.item_name inputs = some (Tens.ofMatrix It))
    (hqid : List.lookup (cfg.query_name ++ "_id") inputs = some (Tens.ofVec qIds))
    (hpid : List.lookup (cfg.item_name ++ "_id") inputs = some (Tens.ofVec pIds))
    (hQne : Q ≠ []) (hItne : It ≠ []) (hlen : Q.length = It.length)
    (hplen : pIds.length = Q.length) (hnne : negIds ≠ []) :
    ContrastiveDotProduct.call cfg inputs features =
      .ok ⟨Tens.ofMatrix (List.zipWith (fun a b => a ++ b)
            ((Q.zip It).map (fun p => [dot p.1 p.2]))
            (if flag then
              (rescore_false_negatives pIds negIds (matmulT Q negE)
                cfg.false_negative_score).1
             else matmulT Q negE)),
          Tens.ofMatrix ((List.zipWith (fun a b => a ++ b)
            ((Q.zip It).map (fun p => [dot p.1 p.2]))
            (if flag then
              (rescore_false_negatives pIds negIds (matmulT Q negE)
                cfg.false_negative_score).1
             else matmulT Q negE)).map
              (fun r => (1 : ℚ) :: List.replicate (r.length - 1) 0))⟩ := by
  obtain ⟨q0, Q', rfl⟩ : ∃ q0 Q', Q = q0 :: Q' := by
    cases Q with
    | nil => exact absurd rfl hQne
    | cons a b => exact ⟨a, b, rfl⟩
  obtain ⟨it0, It', rfl⟩ : ∃ it0 It', It = it0 :: It' := by
    cases It with
    | nil => exact absurd rfl hItne
    | cons a b => exact ⟨a, b, rfl⟩
  obtain ⟨p0, P', rfl⟩ : ∃ p0 P', pIds = p0 :: P' := by
    cases pIds with
    | nil => simp at hplen
    | cons a b => exact ⟨a, b, rfl⟩
  have hdot := dotProduct_call_eval ⟨cfg.query_name, cfg.item_name⟩ inputs
    (q0 :: Q') (it0 :: It') hq hit (by simp) hlen
  cases flag with
  | false =>
    simp only [ContrastiveDotProduct.call,
      get_id_and_embedding_eval _ _ inputs features _ _ hq hqid,
      get_id_and_embedding_eval _ _ inputs features _ _ hit hpid,
      hsamp, hflag, hdot,
      sample_negatives_single negIds negE _ hnne,
      expectMatrix_ofMatrix, expectVec_ofVec,
      bind, Except.bind, if_false, Bool.false_eq_true, matmulT,
      List.map_cons, List.zip_cons_cons, List.zipWith_cons_cons,
      List.singleton_append]
    rw [if_neg]
    rw [rank_ofMatrix_cons, rank_ofMatrix_cons]
    omega
  | true =>
    simp only [ContrastiveDotProduct.call,
      get_id_and_embedding_eval _ _ inputs features _ _ hq hqid,
      get_id_and_embedding_eval _ _ inputs features _ _ hit hpid,
      hsamp, hflag, hdot,
      sample_negatives_single negIds negE _ hnne,
      expectMatrix_ofMatrix, expectVec_ofVec,
      bind, Except.bind, if_true, rescore_false_negatives, matmulT,
      List.map_cons, List.zip_cons_cons, List.zipWith_cons_cons,
      List.singleton_append]
    rw [if_neg]
    rw [rank_ofMatrix_cons, rank_ofMatrix_cons]
    omega

/-- C3.  Contrastive scoring layout: for every batch and for both values
of the rescoring switch (including the `True` default of
`ContrastiveDotProduct` itself), `ContrastiveDotProduct.call` returns a
`Prediction` whose output matrix has the positive query-item dot product
in column 0, followed by exactly one column per sampled negative
carrying that negative's score (the raw dot product, rescored to the
false-negative score exactly when the switch is on and its id collides
with the positive id; the float32 cast is the identity on exact
rationals), and whose target matrix has the same shape with ones in
column 0 and zeros in every other column. -/
theorem C3_contrastive_layout (cfg : ContrastiveCfg) (inputs features : TD)
    (Q It negE : List (List ℚ)) (qIds pIds negIds : List ℚ)
    (hsamp : cfg.negative_samplers = [fun _ => ⟨Tens.ofVec negIds, Tens.ofMatrix negE⟩])
    (hq : List.lookup cfg.query_name inputs = some (Tens.ofMatrix Q))
    (hit : List.lookup cfg.item_name inputs = some (Tens.ofMatrix It))
    (hqid : List.lookup (cfg.query_name ++ "_id") inputs = some (Tens.ofVec qIds))
    (hpid : List.lookup (cfg.item_name ++ "_id") inputs = some (Tens.ofVec pIds))
    (hQne : Q ≠ []) (hItne : It ≠ []) (hlen : Q.length = It.length)
    (hplen : pIds.length = Q.length) (hnne : negIds ≠ [])
    (hlenN : negIds.length = negE.length) :
    ∃ O T : List (List ℚ),
      ContrastiveDotProduct.call cfg inputs features =
        .ok ⟨Tens.ofMatrix O, Tens.ofMatrix T⟩ ∧
      O.length = Q.length ∧ T.length = Q.length ∧
      ∀ i, i < Q.length →
        (O.getD i []).length = 1 + negE.length ∧
        (O.getD i []).getD 0 0 = dot (Q.getD i []) (It.getD i []) ∧
        (∀ j, j < negE.length →
          (O.getD i []).getD (j + 1) 0 =
            if cfg.downscore_false_negatives = true ∧
                negIds.getD j 0 = pIds.getD i 0 then
              cfg.false_negative_score
            else dot (Q.getD i []) (negE.getD j [])) ∧
        T.getD i [] = (1 : ℚ) :: List.replicate negE.length 0 := by
  have hposlen : ((Q.zip It).map (fun p => [dot p.1 p.2])).length = Q.length := by
    simp [List.length_zip, hlen]
  have hrawlen : (matmulT Q negE).length = Q.length := by
    simp [matmulT]
  cases hfl : cfg.downscore_false_negatives with
  | false =>
    have heval := contrastive_call_eval cfg inputs features Q It negE qIds pIds
      negIds false hsamp hfl hq hit hqid hpid hQne hItne hlen hplen hnne
    simp only [Bool.false_eq_true, if_false] at heval
    have hOlen : (List.zipWith (fun a b => a ++ b)
        ((Q.zip It).map (fun p => [dot p.1 p.2])) (matmulT Q negE)).length =
        Q.length := by
      simp [List.length_zipWith, hposlen, hrawlen]
    refine ⟨_, _, heval, hOlen, by simpa using hOlen, ?_⟩
    intro i hi
    have hip : i < ((Q.zip It).map (fun p => [dot p.1 p.2])).length := by
      rw [hposlen]; exact hi
    have hir : i < (matmulT Q negE).length := by rw [hrawlen]; exact hi
    have hrow : (List.zipWith (fun a b => a ++ b)
        ((Q.zip It).map (fun p => [dot p.1 p.2])) (matmulT Q negE)).getD i [] =
        dot (Q.getD i []) (It.getD i []) :: negE.map (fun c => dot (Q.getD i []) c) := by
      rw [getD_zipWith_of_lt _ _ _ i hip hir [] [] []]
      have h1 : ((Q.zip It).map (fun p => [dot p.1 p.2])).getD i [] =
          [dot (Q.getD i []) (It.getD i [])] := by
        rw [getD_map_of_lt _ _ i (by rw [List.length_zip, ← hlen, Nat.min_self]; exact hi)
          [] ([], [])]
        have hz : (Q.zip It).getD i ([], []) = (Q.getD i [], It.getD i []) := by
          rw [List.zip]
          exact getD_zipWith_of_lt Prod.mk Q It i (by omega)
            (by rw [← hlen]; omega) ([], []) [] []
        rw [hz]
      have h2 : (matmulT Q negE).getD i [] = negE.map (fun c => dot (Q.getD i []) c) := by
        rw [matmulT, getD_map_of_lt _ _ i hi [] []]
      rw [h1, h2, List.singleton_append]
    refine ⟨?_, ?_, ?_, ?_⟩
    · rw [hrow]
      simp [Nat.add_comm]
    · rw [hrow]
      rfl
    · intro j hj
      rw [hrow, List.getD_cons_succ, getD_map_of_lt _ _ j hj 0 []]
      simp [hfl]
    · rw [getD_map_of_lt _ _ i (by rw [hOlen]; exact hi) [] [], hrow]
      simp
  | true =>
    have heval := contrastive_call_eval cfg inputs features Q It negE qIds pIds
      negIds true hsamp hfl hq hit hqid hpid hQne hItne hlen hplen hnne
    simp only [if_true] at heval
    have hreslen : ((rescore_false_negatives pIds negIds (matmulT Q negE)
        cfg.false_negative_score).1).length = Q.length := by
      simp [rescore_false_negatives, List.length_zip, hplen, hrawlen]
    have hOlen : (List.zipWith (fun a b => a ++ b)
        ((Q.zip It).map (fun p => [dot p.1 p.2]))
        ((rescore_false_negatives pIds negIds (matmulT Q negE)
          cfg.false_negative_score).1)).length = Q.length := by
      simp [List.length_zipWith, hposlen, hreslen]
    refine ⟨_, _, heval, hOlen, by simpa using hOlen, ?_⟩
    intro i hi
    have hip : i < ((Q.zip It).map (fun p => [dot p.1 p.2])).length := by
      rw [hposlen]; exact hi
    have hires : i < ((rescore_false_negatives pIds negIds (matmulT Q negE)
        cfg.false_negative_score).1).length := by
      rw [hreslen]; exact hi
    have h2 : (matmulT Q negE).getD i [] = negE.map (fun c => dot (Q.getD i []) c) := by
      rw [matmulT, getD_map_of_lt _ _ i hi [] []]
    have hrow : (List.zipWith (fun a b => a ++ b)
        ((Q.zip It).map (fun p => [dot p.1 p.2]))
        ((rescore_false_negatives pIds negIds (matmulT Q negE)
          cfg.false_negative_score).1)).getD i [] =
        dot (Q.getD i []) (It.getD i []) ::
          (negIds.zip (negE.map (fun c => dot (Q.getD i []) c))).map
            (fun nc => if nc.1 = pIds.getD i 0 then cfg.false_negative_score
              else nc.2) := by
      rw [getD_zipWith_of_lt _ _ _ i hip hires [] [] []]
      have h1 : ((Q.zip It).map (fun p => [dot p.1 p.2])).getD i [] =
          [dot (Q.getD i []) (It.getD i [])] := by
        rw [getD_map_of_lt _ _ i (by rw [List.length_zip, ← hlen, Nat.min_self]; exact hi)
          [] ([], [])]
        have hz : (Q.zip It).getD i ([], []) = (Q.getD i [], It.getD i []) := by
          rw [List.zip]
          exact getD_zipWith_of_lt Prod.mk Q It i (by omega)
            (by rw [← hlen]; omega) ([], []) [] []
        rw [hz]
      have hresRow : ((rescore_false_negatives pIds negIds (matmulT Q negE)
          cfg.false_negative_score).1).getD i [] =
          (negIds.zip (negE.map (fun c => dot (Q.getD i []) c))).map
            (fun nc => if nc.1 = pIds.getD i 0 then cfg.false_negative_score
              else nc.2) := by
        rw [rescore_false_negatives]
        rw [getD_map_of_lt _ _ i (by simp [List.length_zip, hplen, hrawlen]; omega)
          [] (0, [])]
        have hz : (pIds.zip (matmulT Q negE)).getD i (0, []) =
            (pIds.getD i 0, (matmulT Q negE).getD i []) := by
          rw [List.zip]
          exact getD_zipWith_of_lt Prod.mk pIds (matmulT Q negE) i
            (by rw [hplen]; exact hi) (by rw [hrawlen]; exact hi) (0, []) 0 []
        rw [hz, h2]
      rw [h1, hresRow, List.singleton_append]
    refine ⟨?_, ?_, ?_, ?_⟩
    · rw [hrow]
      simp [List.length_zip, hlenN, Nat.add_comm]
    · rw [hrow]
      rfl
    · intro j hj
      rw [hrow, List.getD_cons_succ]
      have hjz : j < (negIds.zip (negE.map (fun c => dot (Q.getD i []) c))).length := by
        simp [List.length_zip, hlenN]; omega
      rw [getD_map_of_lt _ _ j hjz 0 (0, 0)]
      have hz2 : (negIds.zip (negE.map (fun c => dot (Q.getD i []) c))).getD j (0, 0) =
          (negIds.getD j 0, dot (Q.getD i []) (negE.getD j [])) := by
        rw [List.zip]
        rw [getD_zipWith_of_lt Prod.mk negIds _ j (by omega)
          (by simpa using hj) (0, 0) 0 0]
        rw [getD_map_of_lt _ _ j hj 0 []]
      rw [hz2]
      simp [hfl]
    · rw [getD_map_of_lt _ _ i (by rw [hOlen]; exact hi) [] [], hrow]
      simp [List.length_zip, hlenN]

/-- C3 witness: one query, one positive item, two sampled negatives and
the rescoring switch at its `ContrastiveDotProduct` default (on), with
the first negative colliding with the positive item id. -/
theorem C3_contrastive_layout_witness :
    ∃ O T : List (List ℚ),
      ContrastiveDotProduct.call
        ⟨"query", "item", "user_id", "item_id", true, MIN_FLOAT,
          [fun _ => ⟨Tens.ofVec [4, 5], Tens.ofMatrix [[1, 0], [0, 1]]⟩]⟩
        [("query", Tens.ofMatrix [[2, 3]]), ("item", Tens.ofMatrix [[1, 1]]),
          ("query_id", Tens.ofVec [1]), ("item_id", Tens.ofVec [4])] [] =
        .ok ⟨Tens.ofMatrix O, Tens.ofMatrix T⟩ ∧
      O.length = 1 ∧ T.length = 1 ∧
      ∀ i, i < 1 →
        (O.getD i []).length = 3 ∧
        (O.getD i []).getD 0 0 =
          dot (([[2, 3]] : List (List ℚ)).getD i [])
            (([[1, 1]] : List (List ℚ)).getD i []) ∧
        (∀ j, j < 2 →
          (O.getD i []).getD (j + 1) 0 =
            if (true : Bool) = true ∧
                ([4, 5] : List ℚ).getD j 0 = ([4] : List ℚ).getD i 0 then
              MIN_FLOAT
            else dot (([[2, 3]] : List (List ℚ)).getD i [])
              (([[1, 0], [0, 1]] : List (List ℚ)).getD j [])) ∧
        T.getD i [] = (1 : ℚ) :: List.replicate 2 0 := by
  have h := C3_contrastive_layout
    ⟨"query", "item", "user_id", "item_id", true, MIN_FLOAT,
      [fun _ => ⟨Tens.ofVec [4, 5], Tens.ofMatrix [[1, 0], [0, 1]]⟩]⟩
    [("query", Tens.ofMatrix [[2, 3]]), ("item", Tens.ofMatrix [[1, 1]]),
      ("query_id", Tens.ofVec [1]), ("item_id", Tens.ofVec [4])] []
    [[2, 3]] [[1, 1]] [[1, 0], [0, 1]] [1] [4] [4, 5]
    rfl rfl rfl rfl rfl (by simp) (by simp) rfl rfl (by simp) rfl
  simpa using h

/-- C2.  False-negative rescoring: with `downscore_false_negatives=True`
every sampled negative whose item id equals the batch's positive item id
has its score replaced by the configured `false_negative_score`, the
scores of all other sampled negatives are unchanged, and with
`downscore_false_negatives=False` no negative score is modified. -/
theorem C2_false_negative_rescoring (cfg : ContrastiveCfg) (inputs features : TD)
    (Q It negE : List (List ℚ)) (qIds pIds negIds : List ℚ) (flag : Bool)
    (hsamp : cfg.negative_samplers = [fun _ => ⟨Tens.ofVec negIds, Tens.ofMatrix negE⟩])
    (hflag : cfg.downscore_false_negatives = flag)
    (hq : List.lookup cfg.query_name inputs = some (Tens.ofMatrix Q))
    (hit : List.lookup cfg.item_name inputs = some (Tens.ofMatrix It))
    (hqid : List.lookup (cfg.query_name ++ "_id") inputs = some (Tens.ofVec qIds))
    (hpid : List.lookup (cfg.item_name ++ "_id") inputs = some (Tens.ofVec pIds))
    (hQne : Q ≠ []) (hItne : It ≠ []) (hlen : Q.length = It.length)
    (hplen : pIds.length = Q.length) (hnne : negIds ≠ [])
    (hlenN : negIds.length = negE.length) :
    ∃ O T : List (List ℚ),
      ContrastiveDotProduct.call cfg inputs features =
        .ok ⟨Tens.ofMatrix O, Tens.ofMatrix T⟩ ∧
      O.length = Q.length ∧
      ∀ i, i < Q.length → ∀ j, j < negE.length →
        (O.getD i []).getD (j + 1) 0 =
          if flag = true ∧ negIds.getD j 0 = pIds.getD i 0 then
            cfg.false_negative_score
          else dot (Q.getD i []) (negE.getD j []) := by
  have heval := contrastive_call_eval cfg inputs features Q It negE qIds pIds negIds
    flag hsamp hflag hq hit hqid hpid hQne hItne hlen hplen hnne
  have hposlen : ((Q.zip It).map (fun p => [dot p.1 p.2])).length = Q.length := by
    simp [List.length_zip, hlen]
  have hrawlen : (matmulT Q negE).length = Q.length := by
    simp [matmulT]
  cases flag with
  | false =>
    simp only [Bool.false_eq_true, if_false] at heval
    have hOlen : (List.zipWith (fun a b => a ++ b)
        ((Q.zip It).map (fun p => [dot p.1 p.2])) (matmulT Q negE)).length = Q.length := by
      simp [List.length_zipWith, hposlen, hrawlen]
    refine ⟨_, _, heval, hOlen, ?_⟩
    intro i hi j hj
    have hip : i < ((Q.zip It).map (fun p => [dot p.1 p.2])).length := by
      rw [hposlen]; exact hi
    have hir : i < (matmulT Q negE).length := by rw [hrawlen]; exact hi
    rw [getD_zipWith_of_lt _ _ _ i hip hir [] [] []]
    have h1 : ((Q.zip It).map (fun p => [dot p.1 p.2])).getD i [] =
        [dot (Q.getD i []) (It.getD i [])] := by
      rw [getD_map_of_lt _ _ i (by rw [List.length_zip, ← hlen, Nat.min_self]; exact hi) [] ([], [])]
      have hz : (Q.zip It).getD i ([], []) = (Q.getD i [], It.getD i []) := by
        rw [List.zip]
        exact getD_zipWith_of_lt Prod.mk Q It i (by omega)
          (by rw [← hlen]; omega) ([], []) [] []
      rw [hz]
    have h2 : (matmulT Q negE).getD i [] = negE.map (fun c => dot (Q.getD i []) c) := by
      rw [matmulT, getD_map_of_lt _ _ i hi [] []]
    rw [h1, h2, List.singleton_append, List.getD_cons_succ,
      getD_map_of_lt _ _ j hj 0 []]
    simp
  | true =>
    simp only [if_true] at heval
    have hreslen : ((rescore_false_negatives pIds negIds (matmulT Q negE)
        cfg.false_negative_score).1).length = Q.length := by
      simp [rescore_false_negatives, List.length_zip, hplen, hrawlen]
    have hOlen : (List.zipWith (fun a b => a ++ b)
        ((Q.zip It).map (fun p => [dot p.1 p.2]))
        ((rescore_false_negatives pIds negIds (matmulT Q negE)
          cfg.false_negative_score).1)).length = Q.length := by
      simp [List.length_zipWith, hposlen, hreslen]
    refine ⟨_, _, heval, hOlen, ?_⟩
    intro i hi j hj
    have hip : i < ((Q.zip It).map (fun p => [dot p.1 p.2])).length := by
      rw [hposlen]; exact hi
    have hires : i < ((rescore_false_negatives pIds negIds (matmulT Q negE)
        cfg.false_negative_score).1).length := by
      rw [hreslen]; exact hi
    rw [getD_zipWith_of_lt _ _ _ i hip hires [] [] []]
    have h1 : ((Q.zip It).map (fun p => [dot p.1 p.2])).getD i [] =
        [dot (Q.getD i []) (It.getD i [])] := by
      rw [getD_map_of_lt _ _ i (by rw [List.length_zip, ← hlen, Nat.min_self]; exact hi) [] ([], [])]
      have hz : (Q.zip It).getD i ([], []) = (Q.getD i [], It.getD i []) := by
        rw [List.zip]
        exact getD_zipWith_of_lt Prod.mk Q It i (by omega)
          (by rw [← hlen]; omega) ([], []) [] []
      rw [hz]
    have h2 : (matmulT Q negE).getD i [] = negE.map (fun c => dot (Q.getD i []) c) := by
      rw [matmulT, getD_map_of_lt _ _ i hi [] []]
    have hresRow : ((rescore_false_negatives pIds negIds (matmulT Q negE)
        cfg.false_negative_score).1).getD i [] =
        (negIds.zip (negE.map (fun c => dot (Q.getD i []) c))).map
          (fun nc => if nc.1 = pIds.getD i 0 then cfg.false_negative_score else nc.2) := by
      rw [rescore_false_negatives]
      rw [getD_map_of_lt _ _ i (by simp [List.length_zip, hplen, hrawlen]; omega)
        [] (0, [])]
      have hz : (pIds.zip (matmulT Q negE)).getD i (0, []) =
          (pIds.getD i 0, (matmulT Q negE).getD i []) := by
        rw [List.zip]
        exact getD_zipWith_of_lt Prod.mk pIds (matmulT Q negE) i
          (by rw [hplen]; exact hi) (by rw [hrawlen]; exact hi) (0, []) 0 []
      rw [hz, h2]
    rw [h1, hresRow, List.singleton_append, List.getD_cons_succ]
    have hjz : j < (negIds.zip (negE.map (fun c => dot (Q.getD i []) c))).length := by
      simp [List.length_zip, hlenN]; omega
    rw [getD_map_of_lt _ _ j hjz 0 (0, 0)]
    have hz2 : (negIds.zip (negE.map (fun c => dot (Q.getD i []) c))).getD j (0, 0) =
        (negIds.getD j 0, dot (Q.getD i []) (negE.getD j [])) := by
      rw [List.zip]
      rw [getD_zipWith_of_lt Prod.mk negIds _ j (by omega)
        (by simpa using hj) (0, 0) 0 0]
      rw [getD_map_of_lt _ _ j hj 0 []]
    rw [hz2]
    simp

/-- C2 witness: one batch row with two sampled negatives, the first a
false negative (same id as the positive item). -/
theorem C2_false_negative_rescoring_witness :
    ∃ O T : List (List ℚ),
      ContrastiveDotProduct.call
        ⟨"query", "item", "user_id", "item_id", true, MIN_FLOAT,
          [fun _ => ⟨Tens.ofVec [4, 5], Tens.ofMatrix [[1, 0], [0, 1]]⟩]⟩
        [("query", Tens.ofMatrix [[2, 3]]), ("item", Tens.ofMatrix [[1, 1]]),
          ("query_id", Tens.ofVec [1]), ("item_id", Tens.ofVec [4])] [] =
        .ok ⟨Tens.ofMatrix O, Tens.ofMatrix T⟩ ∧
      O.length = 1 ∧
      ∀ i, i < 1 → ∀ j, j < ([[1, 0], [0, 1]] : List (List ℚ)).length →
        (O.getD i []).getD (j + 1) 0 =
          if (true : Bool) = true ∧ ([4, 5] : List ℚ).getD j 0 = ([4] : List ℚ).getD i 0
          then MIN_FLOAT
          else dot (([[2, 3]] : List (List ℚ)).getD i [])
            (([[1, 0], [0, 1]] : List (List ℚ)).getD j []) := by
  have h := C2_false_negative_rescoring
    ⟨"query", "item", "user_id", "item_id", true, MIN_FLOAT,
      [fun _ => ⟨Tens.ofVec [4, 5], Tens.ofMatrix [[1, 0], [0, 1]]⟩]⟩
    [("query", Tens.ofMatrix [[2, 3]]), ("item", Tens.ofMatrix [[1, 1]]),
      ("query_id", Tens.ofVec [1]), ("item_id", Tens.ofVec [4])] []
    [[2, 3]] [[1, 1]] [[1, 0], [0, 1]] [1] [4] [4, 5] true
    rfl rfl rfl rfl rfl rfl (by simp) (by simp) rfl rfl (by simp) rfl
  simpa using h

/-- Commutativity of elementwise tensor addition. -/
theorem tens_add_comm : ∀ (a b : Tens), a.add b = b.add a
  | .scal x, .scal y => by simp [Tens.add]; exact add_comm x y
  | .scal _, .arr _ => by simp [Tens.add]
  | .arr _, .scal _ => by simp [Tens.add]
  | .arr [], .arr ys => by cases ys <;> simp [Tens.add, Tens.addList]
  | .arr (x :: xs), .arr [] => by simp [Tens.add, Tens.addList]
  | .arr (x :: xs), .arr (y :: ys) => by
    have h1 := tens_add_comm x y
    have h2 := tens_add_comm (.arr xs) (.arr ys)
    simp only [Tens.add, Tens.arr.injEq] at h2
    simp only [Tens.add, Tens.addList, Tens.arr.injEq, List.cons.injEq]
    exact ⟨h1, h2⟩
termination_by a b => sizeOf a

/-- Associativity of elementwise tensor addition. -/
theorem tens_add_assoc : ∀ (a b c : Tens), (a.add b).add c = a.add (b.add c)
  | .scal x, .scal y, .scal z => by simp [Tens.add]; exact add_assoc x y z
  | .scal _, .scal _, .arr _ => by simp [Tens.add]
  | .scal _, .arr _, .scal _ => by simp [Tens.add]
  | .scal _, .arr _, .arr _ => by simp [Tens.add]
  | .arr _, .scal _, .scal _ => by simp [Tens.add]
  | .arr _, .scal _, .arr _ => by simp [Tens.add]
  | .arr _, .arr _, .scal _ => by simp [Tens.add]
  | .arr [], .arr ys, .arr zs => by
    cases ys <;> cases zs <;> simp [Tens.add, Tens.addList]
  | .arr (x :: xs), .arr [], .arr zs => by
    cases zs <;> simp [Tens.add, Tens.addList]
  | .arr (x :: xs), .arr (y :: ys), .arr [] => by
    simp [Tens.add, Tens.addList]
  | .arr (x :: xs), .arr (y :: ys), .arr (z :: zs) => by
    have h1 := tens_add_assoc x y z
    have h2 := tens_add_assoc (.arr xs) (.arr ys) (.arr zs)
    simp only [Tens.add, Tens.arr.injEq] at h2
    simp only [Tens.add, Tens.addList, Tens.arr.injEq, List.cons.injEq]
    exact ⟨h1, h2⟩
termination_by a b c => sizeOf a

/-- Permutation invariance of summing a stacked list of tensors along
axis 0. -/
theorem sum_fold_perm {l1 l2 : List Tens} (h : List.Perm l1 l2) :
    Tens.reduceSum0 (.arr l1) = Tens.reduceSum0 (.arr l2) := by
  induction h with
  | nil => rfl
  | cons x h ih =>
    simp only [Tens.reduceSum0]
    exact h.foldl_eq' (fun a _ b _ z => by
      rw [tens_add_assoc, tens_add_assoc, tens_add_comm a b]) x
  | swap x y l =>
    simp only [Tens.reduceSum0, List.foldl]
    rw [tens_add_comm]
  | trans h1 h2 ih1 ih2 => exact ih1.trans ih2

/-- Key membership yields a successful lookup. -/
theorem lookup_of_mem_keys {d : TD} {k : String} (h : k ∈ TD.keys d) :
    ∃ v, List.lookup k d = some v := by
  induction d with
  | nil => simp [TD.keys] at h
  | cons p d ih =>
    by_cases hk : k = p.1
    · refine ⟨p.2, ?_⟩
      have hbeq : (k == p.1) = true := by simpa using hk
      rw [List.lookup]
      simp only [hbeq]
    · have hmem : k ∈ TD.keys d := by
        rcases List.mem_cons.mp h with h1 | h1
        · exact absurd h1 hk
        · exact h1
      obtain ⟨v, hv⟩ := ih hmem
      refine ⟨v, ?_⟩
      rw [List.lookup]
      have hbeq : (k == p.1) = false := by simpa using hk
      simp only [hbeq]
      exact hv

/-- After erasing a key from a dict with unique keys, the key is gone. -/
theorem not_mem_keys_eraseP (d : TD) (k : String) (hnd : (TD.keys d).Nodup) :
    k ∉ TD.keys (List.eraseP (fun p => p.1 == k) d) := by
  induction d with
  | nil => simp [TD.keys]
  | cons p d ih =>
    by_cases hb : (p.1 == k) = true
    · rw [List.eraseP_cons]
      simp only [hb, cond_true]
      have hkp : p.1 = k := by simpa using hb
      have : p.1 ∉ TD.keys d := (List.nodup_cons.mp hnd).1
      rw [← hkp]
      exact this
    · rw [List.eraseP_cons]
      have hbf : (p.1 == k) = false := by simpa using hb
      simp only [hbf, cond_false]
      intro hmem
      rcases List.mem_cons.mp hmem with h1 | h1
      · exact absurd h1.symm (by simpa using hb)
      · exact ih (List.nodup_cons.mp hnd).2 h1

/-- Lookups agree on permuted dicts with unique keys. -/
theorem lookup_perm {d1 d2 : TD} (k : String) (h : List.Perm d1 d2) :
    (TD.keys d1).Nodup → List.lookup k d1 = List.lookup k d2 := by
  induction h with
  | nil => intro _; rfl
  | cons x h ih =>
    intro hnd
    rw [List.lookup, List.lookup]
    cases hb : (k == x.1) with
    | true => rfl
    | false => exact ih (List.nodup_cons.mp hnd).2
  | swap x y l =>
    intro hnd
    have hxy : y.1 ≠ x.1 := by
      have := (List.nodup_cons.mp hnd).1
      intro hc
      exact this (hc ▸ List.mem_cons_self _ _)
    rw [List.lookup, List.lookup, List.lookup, List.lookup]
    cases hb1 : (k == y.1) with
    | true =>
      cases hb2 : (k == x.1) with
      | true =>
        exact absurd (by rw [← (beq_iff_eq.mp hb1), ← (beq_iff_eq.mp hb2)]) hxy
      | false => rfl
    | false =>
      cases hb2 : (k == x.1) with
      | true => rfl
      | false => rfl
  | trans h1 h2 ih1 ih2 =>
    intro hnd
    have hnd2 : (TD.keys _).Nodup := (h1.map Prod.fst).nodup hnd
    exact (ih1 hnd).trans (ih2 hnd2)

/-- Sorted key lists of permuted dicts coincide. -/
theorem sortedKeys_eq_of_perm {d1 d2 : TD} (h : List.Perm d1 d2) :
    TD.sortedKeys d1 = TD.sortedKeys d2 := by
  have htot : IsTotal String (fun a b => a ≤ b) := ⟨fun a b => le_total a b⟩
  have htr : IsTrans String (fun a b => a ≤ b) :=
    ⟨fun _ _ _ hab hbc => le_trans hab hbc⟩
  have hanti : IsAntisymm String (fun a b => a ≤ b) :=
    ⟨fun _ _ hab hba => le_antisymm hab hba⟩
  have hp : List.Perm (TD.sortedKeys d1) (TD.sortedKeys d2) := by
    refine (List.perm_insertionSort _ _).trans ?_
    refine (h.map Prod.fst).trans ?_
    exact (List.perm_insertionSort _ _).symm
  exact @List.eq_of_perm_of_sorted _ _ hanti _ _ hp
    (@List.sorted_insertionSort _ _ _ htot htr _)
    (@List.sorted_insertionSort _ _ _ htot htr _)

/-- Values of a dict with unique keys, recovered by key lookups. -/
theorem map_lookup_keys (d : TD) (hnd : (TD.keys d).Nodup) :
    (TD.keys d).map (fun k => (List.lookup k d).getD (Tens.scal 0)) = TD.values d := by
  induction d with
  | nil => rfl
  | cons p d ih =>
    show (p.1 :: TD.keys d).map _ = p.2 :: TD.values d
    rw [List.map_cons]
    refine congrArg₂ _ ?_ ?_
    · rw [List.lookup]
      simp only [beq_self_eq_true]
      rfl
    · rw [← ih (List.nodup_cons.mp hnd).2]
      refine List.map_congr_left (fun k hk => ?_)
      have hne : (k == p.1) = false := by
        have := (List.nodup_cons.mp hnd).1
        simp only [beq_eq_false_iff_ne, ne_eq]
        intro hc
        exact this (hc ▸ hk)
      rw [List.lookup]
      simp only [hne]

/-- Values in sorted-key order are a permutation of the dict values. -/
theorem sortedValues_perm (d : TD) (hnd : (TD.keys d).Nodup) :
    List.Perm (TD.sortedValues d) (TD.values d) := by
  rw [TD.sortedValues, ← map_lookup_keys d hnd]
  exact (List.perm_insertionSort _ _).map _

/-- Constant nonempty lists have a one-element dedup. -/
theorem dedup_const {α : Type _} [DecidableEq α] (a : α) :
    ∀ l : List α, l ≠ [] → (∀ x ∈ l, x = a) → l.dedup = [a]
  | [], h, _ => absurd rfl h
  | [x], _, hall => by rw [hall x (by simp)]; rfl
  | x :: y :: l, _, hall => by
    have hx : x = a := hall x (by simp)
    have hmem : x ∈ y :: l := by
      rw [hx, hall y (by simp)]
      exact List.mem_cons_self _ _
    rw [List.dedup_cons_of_mem hmem]
    exact dedup_const a (y :: l) (by simp) (fun z hz => hall z (List.mem_cons_of_mem _ hz))

/-- One-element dedups force all elements equal. -/
theorem all_eq_of_dedup_len_one {α : Type _} [DecidableEq α] {l : List α}
    (h : l.dedup.length = 1) : ∀ x ∈ l, ∀ y ∈ l, x = y := by
  obtain ⟨a, ha⟩ := List.length_eq_one.mp h
  intro x hx y hy
  have hxa : x = a := by
    have := List.mem_dedup.mpr hx
    rw [ha] at this
    simpa using this
  have hya : y = a := by
    have := List.mem_dedup.mpr hy
    rw [ha] at this
    simpa using this
  rw [hxa, hya]

/-- All-equal shape guards transfer along permutations of a nonempty
value list. -/
theorem all_shape_of_perm {v w : Tens} {vs ws : List Tens}
    (h : List.Perm (v :: vs) (w :: ws))
    (hall : vs.all (fun u => u.shape == v.shape) = true) :
    ws.all (fun u => u.shape == w.shape) = true := by
  have hall' : ∀ u ∈ v :: vs, u.shape = v.shape := by
    intro u hu
    rcases List.mem_cons.mp hu with h1 | h1
    · rw [h1]
    · simpa using List.all_eq_true.mp hall u h1
  have hw : w.shape = v.shape := hall' w (h.symm.subset (List.mem_cons_self _ _))
  refine List.all_eq_true.mpr (fun u hu => ?_)
  have hmem : u ∈ v :: vs := h.symm.subset (List.mem_cons_of_mem _ hu)
  simpa [hw] using hall' u hmem

/-- C9.  Implicit side effect: `SumResidual.call` and `AddLeft.call`
mutate their input mapping by removing the shortcut/left key (via
`dict.pop`) before aggregating, so after the call the caller's dict no
longer contains that feature; no other aggregation operator of the
module removes keys from its input. -/
theorem C9_pop_mutation :
    (∀ (cfg : SumResidualCfg) (d : TD), cfg.shortcut_name ∈ TD.keys d →
      (TD.keys d).Nodup →
      (SumResidual.call cfg d).2 =
        List.eraseP (fun p => p.1 == cfg.shortcut_name) d ∧
      cfg.shortcut_name ∉ TD.keys (SumResidual.call cfg d).2) ∧
    (∀ (cfg : AddLeftCfg) (d : TD), cfg.left_name ∈ TD.keys d →
      (TD.keys d).Nodup →
      (AddLeft.call cfg d).2 = List.eraseP (fun p => p.1 == cfg.left_name) d ∧
      cfg.left_name ∉ TD.keys (AddLeft.call cfg d).2) ∧
    (∀ d : TD, TD.keys (ConcatFeatures.call d).2 = TD.keys d) ∧
    (∀ d : TD, TD.keys (StackFeatures.call d).2 = TD.keys d) ∧
    (∀ d : TD, TD.keys (Sum.call d).2 = TD.keys d) ∧
    (∀ d : TD, TD.keys (ElementwiseSum.call d).2 = TD.keys d) ∧
    (∀ (cfg : ESIMCfg) (d : TD),
      TD.keys (ElementwiseSumItemMulti.call cfg d).2 = TD.keys d) := by
  refine ⟨?_, ?_, fun _ => rfl, fun _ => rfl, fun _ => rfl, fun _ => rfl,
    fun _ _ => rfl⟩
  · intro cfg d hmem hnd
    obtain ⟨v, hv⟩ := lookup_of_mem_keys hmem
    have hsnd : (SumResidual.call cfg d).2 =
        List.eraseP (fun p => p.1 == cfg.shortcut_name) d := by
      simp only [SumResidual.call, TD.pop, hv]
      split <;> rfl
    refine ⟨hsnd, ?_⟩
    rw [hsnd]
    exact not_mem_keys_eraseP d _ hnd
  · intro cfg d hmem hnd
    obtain ⟨v, hv⟩ := lookup_of_mem_keys hmem
    have hsnd : (AddLeft.call cfg d).2 =
        List.eraseP (fun p => p.1 == cfg.left_name) d := by
      simp only [AddLeft.call, TD.pop, hv]
      split <;> rfl
    refine ⟨hsnd, ?_⟩
    rw [hsnd]
    exact not_mem_keys_eraseP d _ hnd

/-- C9 witness: popping aggregations on concrete two-feature dicts. -/
theorem C9_pop_mutation_witness :
    ((SumResidual.call ⟨some (fun x => max x 0), "shortcut"⟩
        [("shortcut", Tens.scal 1), ("x", Tens.scal 2)]).2 =
      List.eraseP (fun p => p.1 == "shortcut")
        [("shortcut", Tens.scal 1), ("x", Tens.scal 2)] ∧
      "shortcut" ∉ TD.keys (SumResidual.call ⟨some (fun x => max x 0), "shortcut"⟩
        [("shortcut", Tens.scal 1), ("x", Tens.scal 2)]).2) ∧
    ((AddLeft.call ⟨"bias", fun t => t⟩
        [("bias", Tens.scal 3), ("y", Tens.scal 4)]).2 =
      List.eraseP (fun p => p.1 == "bias")
        [("bias", Tens.scal 3), ("y", Tens.scal 4)] ∧
      "bias" ∉ TD.keys (AddLeft.call ⟨"bias", fun t => t⟩
        [("bias", Tens.scal 3), ("y", Tens.scal 4)]).2) := by
  constructor
  · exact C9_pop_mutation.1 ⟨some (fun x => max x 0), "shortcut"⟩
      [("shortcut", Tens.scal 1), ("x", Tens.scal 2)] (by simp [TD.keys])
      (by simp [TD.keys])
  · exact C9_pop_mutation.2.1 ⟨"bias", fun t => t⟩
      [("bias", Tens.scal 3), ("y", Tens.scal 4)] (by simp [TD.keys])
      (by simp [TD.keys])

/-- C10.  Order independence: the `Sum` aggregation returns the same
tensor on every two input mappings carrying the same multiset of feature
tensors, under any key names and in any order; `ConcatFeatures` is made
deterministic by concatenating in lexicographically sorted key order, so
its result does not depend on the dict order either. -/
theorem C10_order_independence :
    (∀ e1 e2 : TD, List.Perm (TD.values e1) (TD.values e2) →
      (Sum.call e1).1 = (Sum.call e2).1) ∧
    (∀ e1 e2 : TD, List.Perm e1 e2 → (TD.keys e1).Nodup →
      (ConcatFeatures.call e1).1 = (ConcatFeatures.call e2).1) := by
  constructor
  · intro e1 e2 h
    simp only [Sum.call]
    cases hv1 : TD.values e1 with
    | nil =>
      have hv2 : TD.values e2 = [] := by
        rw [hv1] at h
        exact h.symm.eq_nil
      rw [hv2]
    | cons v vs =>
      cases hv2 : TD.values e2 with
      | nil =>
        rw [hv1, hv2] at h
        exact absurd h.eq_nil (by simp)
      | cons w ws =>
        rw [hv1, hv2] at h
        by_cases hall : (vs.all (fun u => u.shape == v.shape)) = true
        · have hall2 : (ws.all (fun u => u.shape == w.shape)) = true :=
            all_shape_of_perm h hall
          simp only [hall, hall2, if_true]
          exact congrArg Except.ok (sum_fold_perm h)
        · have hallf : (vs.all (fun u => u.shape == v.shape)) = false := by
            simpa using hall
          have hall2 : (ws.all (fun u => u.shape == w.shape)) = false := by
            have hc2 : ¬ ((ws.all (fun u => u.shape == w.shape)) = true) :=
              fun hc => hall (all_shape_of_perm h.symm hc)
            simpa using hc2
          simp only [hallf, hall2, Bool.false_eq_true, if_false]
  · intro e1 e2 h hnd
    have hvals : List.Perm (TD.values e1) (TD.values e2) := h.map Prod.snd
    have hlen : ((TD.values e1).map (fun v => v.shape.dropLast)).dedup.length =
        ((TD.values e2).map (fun v => v.shape.dropLast)).dedup.length :=
      ((hvals.map _).dedup).length_eq
    have hcheck : checkConcatShapes e1 = checkConcatShapes e2 := by
      rw [checkConcatShapes, checkConcatShapes, hlen]
    have hsv : TD.sortedValues e1 = TD.sortedValues e2 := by
      rw [TD.sortedValues, TD.sortedValues, sortedKeys_eq_of_perm h]
      exact List.map_congr_left (fun k _ => by rw [lookup_perm k h hnd])
    simp only [ConcatFeatures.call, expandNonSequential]
    rw [hcheck, hsv]

/-- C10 witness: two-feature dicts permuted (and renamed, for `Sum`). -/
theorem C10_order_independence_witness :
    ((Sum.call [("a", Tens.scal 1), ("b", Tens.scal 2)]).1 =
      (Sum.call [("y", Tens.scal 2), ("x", Tens.scal 1)]).1) ∧
    ((ConcatFeatures.call [("a", Tens.ofVec [1]), ("b", Tens.ofVec [2])]).1 =
      (ConcatFeatures.call [("b", Tens.ofVec [2]), ("a", Tens.ofVec [1])]).1) := by
  constructor
  · refine C10_order_independence.1 _ _ ?_
    show List.Perm [Tens.scal 1, Tens.scal 2] [Tens.scal 2, Tens.scal 1]
    exact List.Perm.swap _ _ _
  · refine C10_order_independence.2 _ _ ?_ ?_
    · exact List.Perm.swap _ _ _
    · show (["a", "b"] : List String).Nodup
      simp

/-- Characterization of tensor well-formedness on one axis. -/
theorem wfb_arr_iff (l : List Tens) :
    (Tens.arr l).wfb = true ↔
      ∀ t ∈ l, t.wfb = true ∧ t.shape = (l.headD (Tens.scal 0)).shape := by
  cases l with
  | nil => simp [Tens.wfb]
  | cons x xs =>
    rw [Tens.wfb]
    simp only [Bool.and_eq_true, List.all_eq_true]
    constructor
    · intro h t ht
      rcases List.mem_cons.mp ht with h1 | h1
      · exact ⟨h1 ▸ h.1, by rw [h1]; rfl⟩
      · have := h.2 ⟨t, h1⟩ (List.mem_attach _ _)
        simp only [Bool.and_eq_true, beq_iff_eq] at this
        exact ⟨this.1, by simpa using this.2⟩
    · intro h
      refine ⟨(h x (List.mem_cons_self _ _)).1, fun tp _ => ?_⟩
      have := h tp.1 (List.mem_cons_of_mem _ tp.2)
      simp only [Bool.and_eq_true, beq_iff_eq]
      exact ⟨this.1, by simpa using this.2⟩

/-- Entry lookup through one axis, via list indexing. -/
theorem entry_arr (xs : List Tens) (i : ℕ) (ix : List ℕ) :
    (Tens.arr xs).entry (i :: ix) = (xs.getD i (Tens.scal 0)).entry ix := by
  induction i generalizing xs with
  | zero =>
    cases xs with
    | nil => cases ix <;> simp [Tens.entry]
    | cons x xs => simp [Tens.entry]
  | succ i ih =>
    cases xs with
    | nil => cases ix <;> simp [Tens.entry]
    | cons x xs =>
      have h1 : (Tens.arr (x :: xs)).entry ((i + 1) :: ix) =
          (Tens.arr xs).entry (i :: ix) := by simp [Tens.entry]
      rw [h1, ih xs, List.getD_cons_succ]

/-- Pointwise tensor-list addition is a zipWith. -/
theorem addList_eq_zipWith : ∀ (xs ys : List Tens),
    Tens.addList xs ys = List.zipWith Tens.add xs ys
  | [], ys => by cases ys <;> simp [Tens.addList]
  | x :: xs, [] => by simp [Tens.addList]
  | x :: xs, y :: ys => by
    rw [List.zipWith_cons_cons, ← addList_eq_zipWith xs ys]
    simp [Tens.addList]

/-- Membership in a pointwise tensor-list sum. -/
theorem mem_addList {t : Tens} : ∀ {xs ys : List Tens},
    t ∈ Tens.addList xs ys → ∃ a ∈ xs, ∃ b ∈ ys, t = a.add b := by
  intro xs
  induction xs with
  | nil => intro ys h; rw [addList_eq_zipWith] at h; simp at h
  | cons x xs ih =>
    intro ys h
    cases ys with
    | nil => rw [addList_eq_zipWith] at h; simp at h
    | cons y ys =>
      have hcons : Tens.addList (x :: xs) (y :: ys) =
          Tens.add x y :: Tens.addList xs ys := by simp [Tens.addList]
      rw [hcons] at h
      rcases List.mem_cons.mp h with h1 | h1
      · exact ⟨x, List.mem_cons_self _ _, y, List.mem_cons_self _ _, h1⟩
      · obtain ⟨a, ha, b, hb, rfl⟩ := ih h1
        exact ⟨a, List.mem_cons_of_mem _ ha, b, List.mem_cons_of_mem _ hb, rfl⟩

/-- List indexing with a default stays in the list. -/
theorem getD_mem {α : Type _} (l : List α) (i : ℕ) (d : α) (h : i < l.length) :
    l.getD i d ∈ l := by
  rw [List.getD_eq_getElem?_getD, List.getElem?_eq_getElem h]
  simpa using List.getElem_mem h

/-- Elementwise addition of two equal-shaped well-formed tensors is
well formed with the same shape. -/
theorem add_preserves : ∀ (s : List ℕ) (a b : Tens), a.wfb = true →
    b.wfb = true → a.shape = s → b.shape = s →
    (a.add b).wfb = true ∧ (a.add b).shape = s
  | [], .scal x, .scal y, _, _, _, _ => by simp [Tens.add, Tens.wfb, Tens.shape]
  | [], .scal _, .arr ys, _, _, _, hsb => by cases ys <;> simp [Tens.shape] at hsb
  | [], .arr xs, _, _, _, hsa, _ => by cases xs <;> simp [Tens.shape] at hsa
  | _ :: _, .scal _, _, _, _, hsa, _ => by simp [Tens.shape] at hsa
  | _ :: _, .arr _, .scal _, _, _, _, hsb => by simp [Tens.shape] at hsb
  | n :: s', .arr [], .arr [], _, _, hsa, _ => by
    constructor
    · simp [Tens.add, Tens.addList, Tens.wfb]
    · have : (Tens.arr ([] : List Tens)).shape = n :: s' := hsa
      simpa [Tens.add, Tens.addList, Tens.shape] using this
  | n :: s', .arr [], .arr (y :: ys'), _, _, hsa, hsb => by
    exfalso
    simp only [Tens.shape] at hsa hsb
    injection hsb.trans hsa.symm with hh _
    omega
  | n :: s', .arr (x :: xs'), .arr [], _, _, hsa, hsb => by
    exfalso
    simp only [Tens.shape] at hsa hsb
    injection hsa.trans hsb.symm with hh _
    omega
  | n :: s', .arr (x :: xs'), .arr (y :: ys'), ha, hb, hsa, hsb => by
    have hxa := (wfb_arr_iff (x :: xs')).mp ha
    have hyb := (wfb_arr_iff (y :: ys')).mp hb
    simp only [Tens.shape] at hsa hsb
    injection hsa with hna hsxa
    injection hsb with hnb hsyb
    have helem : ∀ t ∈ Tens.addList (x :: xs') (y :: ys'),
        t.wfb = true ∧ t.shape = s' := by
      intro t ht
      obtain ⟨a, haMem, b, hbMem, rfl⟩ := mem_addList ht
      have h1 := hxa a haMem
      have h2 := hyb b hbMem
      have ha2 : a.shape = s' := by rw [← hsxa]; simpa using h1.2
      have hb2 : b.shape = s' := by rw [← hsyb]; simpa using h2.2
      exact add_preserves s' a b h1.1 h2.1 ha2 hb2
    have hcons : Tens.addList (x :: xs') (y :: ys') =
        Tens.add x y :: Tens.addList xs' ys' := by simp [Tens.addList]
    have hhead := add_preserves s' x y (hxa x (List.mem_cons_self _ _)).1
      (hyb y (List.mem_cons_self _ _)).1 hsxa hsyb
    constructor
    · show (Tens.arr (Tens.addList (x :: xs') (y :: ys'))).wfb = true
      rw [wfb_arr_iff]
      intro t ht
      refine ⟨(helem t ht).1, ?_⟩
      rw [(helem t ht).2, hcons]
      show s' = (Tens.add x y).shape
      rw [hhead.2]
    · show (Tens.arr (Tens.addList (x :: xs') (y :: ys'))).shape = n :: s'
      rw [hcons, Tens.shape, hhead.2]
      congr 1
      rw [addList_eq_zipWith, List.length_zipWith]
      omega
termination_by s _ _ => s.length

/-- Entries of an elementwise tensor sum are sums of entries, within the
common shape. -/
theorem entry_add : ∀ (ix : List ℕ) (s : List ℕ) (a b : Tens), a.wfb = true →
    b.wfb = true → a.shape = s → b.shape = s →
    List.Forall₂ (fun i n => i < n) ix s →
    (a.add b).entry ix = a.entry ix + b.entry ix := by
  intro ix
  induction ix with
  | nil =>
    intro s a b ha hb hsa hsb hix
    cases hix
    cases a with
    | arr xs => cases xs <;> simp [Tens.shape] at hsa
    | scal x =>
      cases b with
      | arr ys => cases ys <;> simp [Tens.shape] at hsb
      | scal y => simp [Tens.add, Tens.entry]
  | cons i ix ih =>
    intro s a b ha hb hsa hsb hix
    cases s with
    | nil => cases hix
    | cons n s' =>
      cases hix with
      | cons hin htail =>
        cases a with
        | scal x => simp [Tens.shape] at hsa
        | arr xs =>
          cases b with
          | scal y => simp [Tens.shape] at hsb
          | arr ys =>
            cases xs with
            | nil =>
              exfalso
              simp [Tens.shape] at hsa
              omega
            | cons x xs' =>
              cases ys with
              | nil =>
                exfalso
                simp [Tens.shape] at hsb
                omega
              | cons y ys' =>
                simp only [Tens.shape] at hsa hsb
                injection hsa with hna hsxa
                injection hsb with hnb hsyb
                have h1 : ((Tens.arr (x :: xs')).add (Tens.arr (y :: ys'))).entry
                    (i :: ix) =
                    ((Tens.addList (x :: xs') (y :: ys')).getD i
                      (Tens.scal 0)).entry ix := by
                  simp only [Tens.add]
                  rw [entry_arr]
                have hgetD : (Tens.addList (x :: xs') (y :: ys')).getD i
                    (Tens.scal 0) =
                    ((x :: xs').getD i (Tens.scal 0)).add
                      ((y :: ys').getD i (Tens.scal 0)) := by
                  rw [addList_eq_zipWith]
                  exact getD_zipWith_of_lt Tens.add _ _ i
                    (by simp; omega) (by simp; omega)
                    (Tens.scal 0) (Tens.scal 0) (Tens.scal 0)
                have hxa := (wfb_arr_iff (x :: xs')).mp ha
                have hyb := (wfb_arr_iff (y :: ys')).mp hb
                have hmema : (x :: xs').getD i (Tens.scal 0) ∈ x :: xs' :=
                  getD_mem _ i _ (by simp; omega)
                have hmemb : (y :: ys').getD i (Tens.scal 0) ∈ y :: ys' :=
                  getD_mem _ i _ (by simp; omega)
                have hA := hxa _ hmema
                have hB := hyb _ hmemb
                have hsA : ((x :: xs').getD i (Tens.scal 0)).shape = s' := by
                  rw [← hsxa]; simpa using hA.2
                have hsB : ((y :: ys').getD i (Tens.scal 0)).shape = s' := by
                  rw [← hsyb]; simpa using hB.2
                rw [h1, hgetD, ih s' _ _ hA.1 hB.1 hsA hsB htail,
                  entry_arr (x :: xs') i ix, entry_arr (y :: ys') i ix]

/-- Entries of a left fold of elementwise tensor sums, within the common
shape. -/
theorem entry_foldl (s ix : List ℕ) (hix : List.Forall₂ (fun i n => i < n) ix s) :
    ∀ (vs : List Tens) (v : Tens), v.wfb = true → v.shape = s →
      (∀ t ∈ vs, t.wfb = true ∧ t.shape = s) →
      (vs.foldl Tens.add v).entry ix =
        v.entry ix + (vs.map (fun t => t.entry ix)).sum := by
  intro vs
  induction vs with
  | nil => intro v _ _ _; simp
  | cons u us ih =>
    intro v hv hvs hall
    rw [List.foldl_cons]
    have hu := hall u (List.mem_cons_self _ _)
    have hadd := add_preserves s v u hv hu.1 hvs hu.2
    rw [ih (v.add u) hadd.1 hadd.2 (fun t ht => hall t (List.mem_cons_of_mem _ ht)),
      entry_add ix s v u hv hu.1 hvs hu.2 hix, List.map_cons, List.sum_cons]
    ring

/-- Shape of a rank-1 tensor. -/
theorem shape_ofVec (v : List ℚ) : (Tens.ofVec v).shape = [v.length] := by
  cases v with
  | nil => rfl
  | cons x xs => simp [Tens.ofVec, Tens.shape]

/-- Rank-1 tensors are well formed. -/
theorem wfb_ofVec (v : List ℚ) : (Tens.ofVec v).wfb = true := by
  rw [Tens.ofVec, wfb_arr_iff]
  intro t ht
  obtain ⟨a, _, rfl⟩ := List.mem_map.mp ht
  refine ⟨by simp [Tens.wfb], ?_⟩
  cases v with
  | nil => simp at ht
  | cons x xs => simp [Tens.shape]

/-- C7.  Element-wise aggregation shape check: on an input mapping whose
feature tensors do not all have equal shapes, `ElementwiseSum.call`
raises a `ValueError`; on a (nonempty) mapping of equal-shaped,
well-formed feature tensors it returns the elementwise sum of all the
feature tensors: every entry of the result is the sum of the
corresponding entries of the features. -/
theorem C7_elementwise_sum_shape_check (d : TD) :
    ((∃ u ∈ TD.values d, ∃ w ∈ TD.values d, Tens.shape u ≠ Tens.shape w) →
      (ElementwiseSum.call d).1 =
        .error "The shapes of all input features are not equal") ∧
    (TD.values d ≠ [] → (TD.keys d).Nodup →
      (∀ v ∈ TD.values d, v.wfb = true) →
      (∀ v ∈ TD.values d, v.shape = ((TD.values d).headD (Tens.scal 0)).shape) →
      ∃ t, (ElementwiseSum.call d).1 = .ok t ∧
        ∀ ix, List.Forall₂ (fun i n => i < n) ix
            (((TD.values d).headD (Tens.scal 0)).shape) →
          t.entry ix = ((TD.values d).map (fun v => v.entry ix)).sum) := by
  constructor
  · intro hex
    obtain ⟨u, hu, w, hw, hne⟩ := hex
    have hcond : ¬ (((TD.values d).map Tens.shape).dedup.length = 1) := by
      intro hlen
      have hall := all_eq_of_dedup_len_one hlen
      exact hne (hall _ (List.mem_map_of_mem _ hu) _ (List.mem_map_of_mem _ hw))
    simp only [ElementwiseSum.call, expandNonSequential, checkInputShapesEqual,
      if_neg hcond, bind, Except.bind]
  · intro hvne hnd hwfv hallshape
    have hcond : ((TD.values d).map Tens.shape).dedup.length = 1 := by
      rw [dedup_const (((TD.values d).headD (Tens.scal 0)).shape) _
        (by simpa using hvne)
        (fun x hx => by
          obtain ⟨v, hv, rfl⟩ := List.mem_map.mp hx
          exact hallshape v hv)]
      rfl
    have hcond2 : ¬ (1 <
        ((TD.values d).map (fun v => v.shape.dropLast)).dedup.length) := by
      rw [dedup_const (((TD.values d).headD (Tens.scal 0)).shape.dropLast) _
        (by simpa using hvne)
        (fun x hx => by
          obtain ⟨v, hv, rfl⟩ := List.mem_map.mp hx
          rw [hallshape v hv])]
      simp
    refine ⟨Tens.reduceSum0 (Tens.arr (TD.sortedValues d)), ?_, ?_⟩
    · simp only [ElementwiseSum.call, StackFeatures.call, expandNonSequential,
        checkInputShapesEqual, checkConcatShapes, if_pos hcond, if_neg hcond2,
        bind, Except.bind]
    · intro ix hix
      have hperm := sortedValues_perm d hnd
      cases hsv : TD.sortedValues d with
      | nil =>
        exfalso
        rw [hsv] at hperm
        exact hvne hperm.symm.eq_nil
      | cons sv svs =>
        rw [hsv] at hperm
        have hred : Tens.reduceSum0 (Tens.arr (sv :: svs)) =
            svs.foldl Tens.add sv := by simp [Tens.reduceSum0]
        rw [hred]
        have hmemvals : ∀ t ∈ sv :: svs, t ∈ TD.values d :=
          fun t ht => hperm.subset ht
        rw [entry_foldl (((TD.values d).headD (Tens.scal 0)).shape) ix hix svs sv
          (hwfv sv (hmemvals sv (List.mem_cons_self _ _)))
          (hallshape sv (hmemvals sv (List.mem_cons_self _ _)))
          (fun t ht =>
            ⟨hwfv t (hmemvals t (List.mem_cons_of_mem _ ht)),
             hallshape t (hmemvals t (List.mem_cons_of_mem _ ht))⟩)]
        have hsum : ((sv :: svs).map (fun t => t.entry ix)).sum =
            ((TD.values d).map (fun t => t.entry ix)).sum := (hperm.map _).sum_eq
        rw [← hsum, List.map_cons, List.sum_cons]

/-- C7 witness: two equal-shaped features summed, and a mismatched pair
raising; both on concrete dicts. -/
theorem C7_elementwise_sum_shape_check_witness :
    (∃ t, (ElementwiseSum.call
        [("a", Tens.ofVec [1, 2]), ("b", Tens.ofVec [3, 4])]).1 = .ok t ∧
      ∀ ix, List.Forall₂ (fun i n => i < n) ix
          (((TD.values [("a", Tens.ofVec [1, 2]),
            ("b", Tens.ofVec [3, 4])]).headD (Tens.scal 0)).shape) →
        t.entry ix =
          ((TD.values [("a", Tens.ofVec [1, 2]), ("b", Tens.ofVec [3, 4])]).map
            (fun v => v.entry ix)).sum) ∧
    (ElementwiseSum.call [("a", Tens.ofVec [1]), ("b", Tens.ofVec [3, 4])]).1 =
      .error "The shapes of all input features are not equal" := by
  constructor
  · refine (C7_elementwise_sum_shape_check
      [("a", Tens.ofVec [1, 2]), ("b", Tens.ofVec [3, 4])]).2
      (by simp [TD.values]) (by simp [TD.keys]) ?_ ?_
    · intro v hv
      have hv' : v = Tens.ofVec [1, 2] ∨ v = Tens.ofVec [3, 4] := by
        simpa [TD.values] using hv
      rcases hv' with h | h <;> (rw [h]; exact wfb_ofVec _)
    · intro v hv
      have hv' : v = Tens.ofVec [1, 2] ∨ v = Tens.ofVec [3, 4] := by
        simpa [TD.values] using hv
      have hhead : ((TD.values [("a", Tens.ofVec [1, 2]),
          ("b", Tens.ofVec [3, 4])]).headD (Tens.scal 0)) = Tens.ofVec [1, 2] := rfl
      rcases hv' with h | h
      · rw [h, hhead]
      · rw [h, hhead, shape_ofVec, shape_ofVec]
        rfl
  · refine (C7_elementwise_sum_shape_check
      [("a", Tens.ofVec [1]), ("b", Tens.ofVec [3, 4])]).1 ?_
    refine ⟨Tens.ofVec [1], by simp [TD.values], Tens.ofVec [3, 4],
      by simp [TD.values], ?_⟩
    rw [shape_ofVec, shape_ofVec]
    simp

end Merlin
